import Mathlib

/-!
Verification of the region-tree analysis core (`legion_analysis.cc`).

This file gives a shallow embedding of the data structures and operations of
the analysis engine — `VersionInfo`, the `Restriction`/`Acquisition` tracker,
`FieldState`, `LogicalState` projection epochs, `VersionManager`, and the
`InstanceSet`/`InstanceRef` copy-on-write container — and proves or refutes
the specification claims about them.

Field masks are modelled as finite sets of field indices (`Finset ℕ`): the
C++ `FieldMask` is a dense bit-set whose operations (`&`, `|=`, `-=`, the
`!`/`!!` emptiness tests and the `*` disjointness test) correspond exactly to
intersection, union, difference, emptiness and disjointness of the set of set
bits.  Pointers to runtime objects (physical managers, projection functions,
index spaces, equivalence sets) are modelled by their identity, i.e. by a
natural-number id, with `Option` capturing possibly-NULL pointers.
-/

set_option maxHeartbeats 1000000

namespace LegionAnalysis

/-- A field mask: the set of field indices whose bits are set. -/
abbrev FieldMask := Finset ℕ

/-! ## Region usage and privileges

The privilege modes of a region requirement.  The analysis code tests them
through the `IS_READ_ONLY` / `IS_WRITE` / `IS_REDUCE` macros, which are
declared in the runtime headers outside this translation unit. -/

/-- Privilege modes of a `RegionUsage` (spec §3: `privilege ∈ {NoAccess,
ReadOnly, ReadWrite, WriteDiscard, Reduce(redop_id)}`). -/
inductive PrivilegeMode : Type where
  | NoAccess
  | ReadOnly
  | ReadWrite
  | WriteDiscard
  | Reduce
  deriving DecidableEq, Repr

/-- A region usage: a privilege together with a reduction operator id
(non-zero only for reducing usages). -/
structure RegionUsage : Type where
  privilege : PrivilegeMode
  redop : ℕ
  deriving DecidableEq, Repr

/-- Modelled from the spec: the `IS_WRITE` predicate on usages is declared in
the runtime headers, not in `legion_analysis.cc`.  Spec §4.3: a request is
writing when its privilege is `ReadWrite`, `WriteDiscard`, or any reducing
usage that must produce a definite result. -/
def IS_WRITE (u : RegionUsage) : Bool :=
  match u.privilege with
  | .ReadWrite => true
  | .WriteDiscard => true
  | .Reduce => true
  | _ => false

/-! ## VersionInfo (claims C1 and C10)

`VersionInfo` holds a `std::set<EquivalenceSet*>`; equivalence sets are
modelled by their identity (a natural number), and the set by a `Finset ℕ`.
Reference counts of the equivalence sets are modelled by an explicit
environment `ℕ → ℕ` giving the number of `VERSION_INFO_REF` references each
set currently holds from this `VersionInfo`, together with whatever baseline
references other components hold. -/

/-- The state of a `VersionInfo` together with the reference counts of all
equivalence sets (`refs s` counts the base resource references held on set
`s`). -/
structure VersionInfoState : Type where
  equivalence_sets : Finset ℕ
  refs : ℕ → ℕ

/-- `VersionInfo::record_equivalence_set`: insert the set; if it was actually
added, add one `VERSION_INFO_REF` reference to it. -/
def recordEquivalenceSet (st : VersionInfoState) (s : ℕ) : VersionInfoState :=
  if s ∈ st.equivalence_sets then st
  else { equivalence_sets := insert s st.equivalence_sets,
         refs := fun t => if t = s then st.refs t + 1 else st.refs t }

/-- `VersionInfo::clear`: remove one `VERSION_INFO_REF` reference from every
stored equivalence set and empty the snapshot. -/
def clearVersionInfo (st : VersionInfoState) : VersionInfoState :=
  { equivalence_sets := ∅,
    refs := fun t => if t ∈ st.equivalence_sets then st.refs t - 1 else st.refs t }

/-- `VersionInfo::make_ready`: the access mode requested from a recorded
equivalence set (`request_valid_copy(mask, exclusive, ...)`), where
`exclusive = IS_WRITE(usage)`; `none` when the set is not recorded. -/
def makeReadyMode (st : VersionInfoState) (usage : RegionUsage) (s : ℕ) : Option Bool :=
  if s ∈ st.equivalence_sets then some (IS_WRITE usage) else none

/-- Operations performed on a `VersionInfo` (claim C10 quantifies over
arbitrary sequences of these). -/
inductive VIOp : Type where
  | record (s : ℕ)
  | clear
  deriving DecidableEq, Repr

/-- Run a sequence of `record_equivalence_set`/`clear` calls. -/
def runVIOps (st : VersionInfoState) : List VIOp → VersionInfoState
  | [] => st
  | .record s :: rest => runVIOps (recordEquivalenceSet st s) rest
  | .clear :: rest => runVIOps (clearVersionInfo st) rest

/-! ## FieldState (claim C3) -/

/-- The ten open states of a `FieldState`. -/
inductive OpenState : Type where
  | NOT_OPEN
  | OPEN_READ_ONLY
  | OPEN_READ_WRITE
  | OPEN_SINGLE_REDUCE
  | OPEN_MULTI_REDUCE
  | OPEN_READ_ONLY_PROJ
  | OPEN_READ_WRITE_PROJ
  | OPEN_READ_WRITE_PROJ_DISJOINT_SHALLOW
  | OPEN_REDUCE_PROJ
  | OPEN_REDUCE_PROJ_DIRTY
  deriving DecidableEq, Repr

/-- A `FieldState`: valid fields, open state, reduction operator, projection
function and projection space (pointers, modelled by ids with `none` for
NULL), and the open children map. -/
structure FieldState : Type where
  valid_fields : FieldMask
  open_state : OpenState
  redop : ℕ
  projection : Option ℕ
  projection_space : Option ℕ
  open_children : List (ℕ × FieldMask)
  deriving DecidableEq

/-- `FieldState::overlaps`, translated clause by clause from the source:
reject differing `redop`, differing `projection`, differing
`projection_space` when a projection is present; then compare `open_state`
when `redop == 0` and `valid_fields` otherwise. -/
def FieldState.overlaps (l r : FieldState) : Bool :=
  if l.redop ≠ r.redop then false
  else if l.projection ≠ r.projection then false
  else if l.projection ≠ none ∧ l.projection_space ≠ r.projection_space then false
  else if l.redop = 0 then l.open_state = r.open_state
  else l.valid_fields = r.valid_fields

/-! ## LogicalState and projection epochs (claims C8 and C9) -/

/-- A `ProjectionEpoch`: an epoch id together with the fields it covers. -/
structure ProjectionEpoch : Type where
  epoch_id : ℕ
  valid_fields : FieldMask
  deriving DecidableEq

/-- A `LogicalUser` as recorded in the epoch user lists: the operation
handle, its generation, and the fields it holds.  Only the parts that
`LogicalState::reset` clears are relevant here. -/
structure LogicalUser : Type where
  op : ℕ
  gen : ℕ
  field_mask : FieldMask
  deriving DecidableEq

/-- The per-node, per-context `LogicalState`: the fields cleared by
`LogicalState::reset`. -/
structure LogicalState : Type where
  field_states : List FieldState
  curr_epoch_users : List LogicalUser
  prev_epoch_users : List LogicalUser
  reduction_fields : FieldMask
  outstanding_reductions : List (ℕ × FieldMask)
  projection_epochs : List ProjectionEpoch

/-- `LogicalState::reset`: clear the field states, both user lists, the
reduction fields and outstanding reductions, and delete all projection
epochs. -/
def LogicalState.reset (_s : LogicalState) : LogicalState :=
  { field_states := []
    curr_epoch_users := []
    prev_epoch_users := []
    reduction_fields := ∅
    outstanding_reductions := []
    projection_epochs := [] }

/-- Insertion into the ordered `std::map<ProjectionEpochID,ProjectionEpoch*>`
accumulator of `advance_projection_epochs`: keys are kept in increasing
order; inserting an existing key unions the field masks
(`finder->second->valid_fields |= overlap`). -/
def mapInsert (k : ℕ) (m : FieldMask) : List (ℕ × FieldMask) → List (ℕ × FieldMask)
  | [] => [(k, m)]
  | (k0, m0) :: rest =>
    if k = k0 then (k0, m0 ∪ m) :: rest
    else if k < k0 then (k, m) :: (k0, m0) :: rest
    else (k0, m0) :: mapInsert k m rest

/-- The loop of `LogicalState::advance_projection_epochs`: walk the epoch
list; for each epoch overlapping the advance mask, move the overlap into the
`to_add` accumulator under epoch id + 1, filter the overlap out of the epoch,
and drop the epoch when its fields empty. -/
def advanceLoop (adv : FieldMask) :
    List ProjectionEpoch → List (ℕ × FieldMask) →
    List ProjectionEpoch × List (ℕ × FieldMask)
  | [], toAdd => ([], toAdd)
  | e :: rest, toAdd =>
    let ov := e.valid_fields ∩ adv
    if ov = ∅ then
      let res := advanceLoop adv rest toAdd
      (e :: res.1, res.2)
    else
      let toAdd1 := mapInsert (e.epoch_id + 1) ov toAdd
      let vf1 := e.valid_fields \ ov
      if vf1 = ∅ then advanceLoop adv rest toAdd1
      else
        let res := advanceLoop adv rest toAdd1
        ({ epoch_id := e.epoch_id, valid_fields := vf1 } :: res.1, res.2)

/-- `LogicalState::advance_projection_epochs`: run the loop starting from an
empty accumulator, then append the accumulated next-epoch entries (in
increasing key order, as `std::map` iteration yields them). -/
def LogicalState.advance_projection_epochs (s : LogicalState) (adv : FieldMask) :
    LogicalState :=
  let res := advanceLoop adv s.projection_epochs []
  { s with projection_epochs :=
      res.1 ++ res.2.map (fun p => { epoch_id := p.1, valid_fields := p.2 }) }

/-- The fields that lie in some projection epoch with the given epoch id. -/
def fieldsAt (k : ℕ) (l : List ProjectionEpoch) (f : ℕ) : Prop :=
  ∃ e ∈ l, e.epoch_id = k ∧ f ∈ e.valid_fields

/-- The projection-epoch invariant (spec §3): every epoch has non-empty
`valid_fields`, and no two epochs for the same epoch id share a field. -/
def epochInv (l : List ProjectionEpoch) : Prop :=
  (∀ e ∈ l, e.valid_fields ≠ ∅) ∧
  l.Pairwise (fun a b => a.epoch_id = b.epoch_id → Disjoint a.valid_fields b.valid_fields)

/-! ## VersionManager (claim C9) -/

/-- The `VersionManager` state touched by `VersionManager::reset`:
owner flag, current context pointer (modelled by an optional id), the set of
equivalence sets it holds references on, the one-shot readiness event
(`none` models `RtUserEvent::NO_RT_USER_EVENT`), and the
`has_equivalence_sets` flag; plus the reference-count environment of the
equivalence sets, as for `VersionInfo`. -/
structure VersionManagerState : Type where
  is_owner : Bool
  current_context : Option ℕ
  equivalence_sets : Finset ℕ
  equivalence_sets_ready : Option ℕ
  has_equivalence_sets : Bool
  refs : ℕ → ℕ

/-- `VersionManager::reset`: drop the owner flag and context, remove one
`VERSION_MANAGER_REF` from every held equivalence set and empty the set,
clear the readiness event and the `has_equivalence_sets` flag. -/
def VersionManagerState.reset (st : VersionManagerState) : VersionManagerState :=
  { is_owner := false
    current_context := none
    equivalence_sets := ∅
    equivalence_sets_ready := none
    has_equivalence_sets := false
    refs := fun t => if t ∈ st.equivalence_sets then st.refs t - 1 else st.refs t }

/-! ## Restriction / Acquisition tracker (claims C2, C4, C5)

Region-tree nodes are modelled by ids; the forest supplies the dominance and
intersection tests the tracker consults (`node->dominates`,
`node->intersects_with`).  A `Restriction` holds `Acquisition`s nested inside
it and vice versa, exactly as in the source.  Restricted instances are the
map from a physical manager (by id) to its fields. -/

/-- The region forest as seen by the tracker: the two node predicates the
code calls. -/
structure Forest : Type where
  dominates : ℕ → ℕ → Bool
  intersects_with : ℕ → ℕ → Bool

mutual

/-- A `Restriction`: its region node, restricted fields, restricted
instances, and the acquisitions carved inside it. -/
inductive Restriction : Type where
  | mk (local_node : ℕ) (restricted_fields : FieldMask)
      (instances : List (ℕ × FieldMask)) (acquisitions : List Acquisition)

/-- An `Acquisition`: its region node, acquired fields, and the restrictions
nested inside it. -/
inductive Acquisition : Type where
  | mk (local_node : ℕ) (acquired_fields : FieldMask) (restrictions : List Restriction)

end

/-- The node of a restriction. -/
def Restriction.local_node : Restriction → ℕ
  | .mk n _ _ _ => n

/-- The restricted fields of a restriction. -/
def Restriction.restricted_fields : Restriction → FieldMask
  | .mk _ f _ _ => f

/-- The restricted instances of a restriction. -/
def Restriction.instances : Restriction → List (ℕ × FieldMask)
  | .mk _ _ i _ => i

/-- The acquisitions nested in a restriction. -/
def Restriction.acquisitions : Restriction → List Acquisition
  | .mk _ _ _ a => a

/-- The node of an acquisition. -/
def Acquisition.local_node : Acquisition → ℕ
  | .mk n _ _ => n

/-- The acquired fields of an acquisition. -/
def Acquisition.acquired_fields : Acquisition → FieldMask
  | .mk _ f _ => f

/-- The restrictions nested in an acquisition. -/
def Acquisition.restrictions : Acquisition → List Restriction
  | .mk _ _ r => r

/-- `Restriction::remove_restricted_fields`: subtract this restriction's
fields from the remaining mask. -/
def Restriction.remove_restricted_fields (r : Restriction) (remaining : FieldMask) :
    FieldMask :=
  remaining \ r.restricted_fields

/-- `Acquisition::remove_acquired_fields`: subtract this acquisition's
fields from the remaining mask. -/
def Acquisition.remove_acquired_fields (a : Acquisition) (remaining : FieldMask) :
    FieldMask :=
  remaining \ a.acquired_fields

/-- `Acquisition::matches` (release): returns the match flag together with
the updated `acquired_fields` (the only field the function mutates in place)
and the updated remaining mask.  The loop over nested restrictions subtracts
each `restricted_fields` from the overlap and bails out once the overlap
empties, which is the fold below followed by the emptiness test (subtracting
from an empty mask leaves it empty). -/
def Acquisition.matches (a : Acquisition) (node : ℕ) (remaining : FieldMask) :
    Bool × FieldMask × FieldMask :=
  match a with
  | .mk ln acq restrs =>
    if ln ≠ node then (false, acq, remaining)
    else
      let ov0 := remaining ∩ acq
      if ov0 = ∅ then (false, acq, remaining)
      else
        let ov := restrs.foldl (fun o r => o \ r.restricted_fields) ov0
        if ov = ∅ then (false, acq, remaining)
        else
          (decide (acq \ ov = ∅), acq \ ov, remaining \ ov)

/-- `Restriction::matches` (detach): returns the match flag together with the
updated restriction and remaining mask.  On a full match the caller deletes
the restriction, so its instances are left untouched; on a partial match the
overlap is filtered out of each instance and empty instances are dropped. -/
def Restriction.matches (r : Restriction) (node : ℕ) (remaining : FieldMask) :
    Bool × Restriction × FieldMask :=
  match r with
  | .mk ln rf insts acqs =>
    if ln ≠ node then (false, .mk ln rf insts acqs, remaining)
    else
      let ov0 := remaining ∩ rf
      if ov0 = ∅ then (false, .mk ln rf insts acqs, remaining)
      else
        let ov := acqs.foldl (fun o a => o \ a.acquired_fields) ov0
        if ov = ∅ then (false, .mk ln rf insts acqs, remaining)
        else
          let remaining1 := remaining \ ov
          let rf1 := rf \ ov
          if rf1 = ∅ then (true, .mk ln rf1 insts acqs, remaining1)
          else
            let insts1 :=
              ((insts.map fun p => (p.1, p.2 \ ov)).filter fun p => p.2 ≠ ∅)
            (false, .mk ln rf1 insts1 acqs, remaining1)

/-- The errors the acquire path can report (`REPORT_LEGION_ERROR` aborts the
offending operation). -/
inductive RAError : Type where
  | IllegalPartialAcquire
  | IllegalInterferingAcquire
  deriving DecidableEq

mutual

/-- `Restriction::add_acquisition` (acquire).  If the acquire node is not
dominated, an intersection is an illegal partial acquire; otherwise the
overlap is removed from the remaining fields, offered to the nested
acquisitions, and any leftover starts a new `Acquisition` at the acquire
node. -/
def Restriction.add_acquisition (F : Forest) (node : ℕ) (r : Restriction)
    (remaining : FieldMask) : Except RAError (Restriction × FieldMask) :=
  match r with
  | .mk ln rf insts acqs =>
    let ov := rf ∩ remaining
    if ov = ∅ then .ok (.mk ln rf insts acqs, remaining)
    else if ¬ F.dominates ln node then
      if F.intersects_with ln node then .error .IllegalPartialAcquire
      else .ok (.mk ln rf insts acqs, remaining)
    else
      let remaining1 := remaining \ ov
      match goAcquireAcqs F node acqs ov with
      | .error e => .error e
      | .ok (acqs1, ov1) =>
        if ov1 = ∅ then .ok (.mk ln rf insts acqs1, remaining1)
        else .ok (.mk ln rf insts (acqs1 ++ [.mk node ov1 []]), remaining1)
termination_by sizeOf r

/-- The loop of `Restriction::add_acquisition` over its acquisitions,
with its early exit once the overlap is fully consumed. -/
def goAcquireAcqs (F : Forest) (node : ℕ) (acqs : List Acquisition)
    (ov : FieldMask) : Except RAError (List Acquisition × FieldMask) :=
  match acqs with
  | [] => .ok ([], ov)
  | a :: rest =>
    match Acquisition.add_acquisition F node a ov with
    | .error e => .error e
    | .ok (a1, ov1) =>
      if ov1 = ∅ then .ok (a1 :: rest, ov1)
      else
        match goAcquireAcqs F node rest ov1 with
        | .error e => .error e
        | .ok (rest1, ov2) => .ok (a1 :: rest1, ov2)
termination_by sizeOf acqs

/-- `Acquisition::add_acquisition` (acquire): fields already disjoint from
this acquisition, or a non-intersecting node, pass through untouched;
otherwise the nested restrictions must consume every remaining field, and
anything left over is an illegal interfering acquire. -/
def Acquisition.add_acquisition (F : Forest) (node : ℕ) (a : Acquisition)
    (remaining : FieldMask) : Except RAError (Acquisition × FieldMask) :=
  match a with
  | .mk ln acq restrs =>
    if Disjoint acq remaining then .ok (.mk ln acq restrs, remaining)
    else if ¬ F.intersects_with ln node then .ok (.mk ln acq restrs, remaining)
    else
      match goAcquireRestrs F node restrs remaining with
      | .error e => .error e
      | .ok (restrs1, rem1) =>
        if rem1 = ∅ then .ok (.mk ln acq restrs1, rem1)
        else .error .IllegalInterferingAcquire
termination_by sizeOf a

/-- The loop of `Acquisition::add_acquisition` over its nested restrictions,
with its early exit once the remaining fields are consumed. -/
def goAcquireRestrs (F : Forest) (node : ℕ) (restrs : List Restriction)
    (remaining : FieldMask) : Except RAError (List Restriction × FieldMask) :=
  match restrs with
  | [] => .ok ([], remaining)
  | r :: rest =>
    match Restriction.add_acquisition F node r remaining with
    | .error e => .error e
    | .ok (r1, rem1) =>
      if rem1 = ∅ then .ok (r1 :: rest, rem1)
      else
        match goAcquireRestrs F node rest rem1 with
        | .error e => .error e
        | .ok (rest1, rem2) => .ok (r1 :: rest1, rem2)
termination_by sizeOf restrs

end

mutual

/-- Structural depth of a restriction, ignoring the field masks; used as the
termination measure of the release path (whose loops rebuild nodes with
smaller masks but untouched children). -/
def depthR : Restriction → ℕ
  | .mk _ _ _ acqs => 1 + depthAList acqs

/-- `depthA` summed over a list. -/
def depthAList : List Acquisition → ℕ
  | [] => 0
  | a :: rest => 1 + depthA a + depthAList rest

/-- Structural depth of an acquisition, ignoring the field masks. -/
def depthA : Acquisition → ℕ
  | .mk _ _ restrs => 1 + depthRList restrs

/-- `depthR` summed over a list. -/
def depthRList : List Restriction → ℕ
  | [] => 0
  | r :: rest => 1 + depthR r + depthRList rest

end

mutual

/-- `Restriction::remove_acquisition` (release): walk the acquisitions,
deleting those whose `matches` succeeds and recursing into the others while
fields remain. -/
def Restriction.remove_acquisition (F : Forest) (node : ℕ) (r : Restriction)
    (remaining : FieldMask) : Restriction × FieldMask :=
  match r with
  | .mk ln rf insts acqs =>
    if Disjoint rf remaining then (.mk ln rf insts acqs, remaining)
    else if ¬ F.intersects_with ln node then (.mk ln rf insts acqs, remaining)
    else
      let res := goReleaseAcqs F node acqs remaining
      (.mk ln rf insts res.1, res.2)
termination_by depthR r
decreasing_by
simp only [depthR]
omega

/-- The loop of `Restriction::remove_acquisition`: each acquisition is first
tried with `matches` (erased on success), else recursed into while fields
remain; the loop breaks once the remaining mask empties. -/
def goReleaseAcqs (F : Forest) (node : ℕ) (acqs : List Acquisition)
    (remaining : FieldMask) : List Acquisition × FieldMask :=
  match acqs with
  | [] => ([], remaining)
  | .mk ln acq restrs :: rest =>
    let m := Acquisition.matches (.mk ln acq restrs) node remaining
    if m.1 then
      if m.2.2 = ∅ then (rest, m.2.2)
      else goReleaseAcqs F node rest m.2.2
    else
      if m.2.2 = ∅ then (.mk ln m.2.1 restrs :: rest, m.2.2)
      else
        let res1 := Acquisition.remove_acquisition F node (.mk ln m.2.1 restrs) m.2.2
        if res1.2 = ∅ then (res1.1 :: rest, res1.2)
        else
          let res2 := goReleaseAcqs F node rest res1.2
          (res1.1 :: res2.1, res2.2)
termination_by depthAList acqs
decreasing_by
all_goals simp only [depthAList, depthA]
all_goals omega

/-- `Acquisition::remove_acquisition` (release): pass through when the fields
are disjoint from the acquired ones or the node is not dominated; otherwise
recurse into the nested restrictions. -/
def Acquisition.remove_acquisition (F : Forest) (node : ℕ) (a : Acquisition)
    (remaining : FieldMask) : Acquisition × FieldMask :=
  match a with
  | .mk ln acq restrs =>
    if Disjoint acq remaining then (.mk ln acq restrs, remaining)
    else if ¬ F.dominates ln node then (.mk ln acq restrs, remaining)
    else
      let res := goReleaseRestrs F node restrs remaining
      (.mk ln acq res.1, res.2)
termination_by depthA a
decreasing_by
simp only [depthA]
omega

/-- The loop of `Acquisition::remove_acquisition` over its restrictions, with
its early exit once the remaining fields are consumed. -/
def goReleaseRestrs (F : Forest) (node : ℕ) (restrs : List Restriction)
    (remaining : FieldMask) : List Restriction × FieldMask :=
  match restrs with
  | [] => ([], remaining)
  | r :: rest =>
    let res := Restriction.remove_acquisition F node r remaining
    if res.2 = ∅ then (res.1 :: rest, res.2)
    else
      let res2 := goReleaseRestrs F node rest res.2
      (res.1 :: res2.1, res2.2)
termination_by depthRList restrs
decreasing_by
all_goals simp only [depthRList]
all_goals omega

end

mutual

/-- All fields acquired anywhere inside a restriction's subtree. -/
def allAcquiredR : Restriction → FieldMask
  | .mk _ _ _ acqs => allAcquiredAList acqs

/-- `allAcquiredA` summed over a list. -/
def allAcquiredAList : List Acquisition → FieldMask
  | [] => ∅
  | a :: rest => allAcquiredA a ∪ allAcquiredAList rest

/-- All fields acquired anywhere inside an acquisition's subtree (its own
acquired fields included). -/
def allAcquiredA : Acquisition → FieldMask
  | .mk _ acq restrs => acq ∪ allAcquiredRList restrs

/-- `allAcquiredR` summed over a list. -/
def allAcquiredRList : List Restriction → FieldMask
  | [] => ∅
  | r :: rest => allAcquiredR r ∪ allAcquiredRList rest

end

/-- Modelled from the spec: the per-context coordinator that owns the
top-level restrictions (`record_acquire` walks them, handing the acquire
fields to each `Restriction::add_acquisition` until they are consumed). -/
def trackerAcquire (F : Forest) (node : ℕ) :
    List Restriction → FieldMask → Except RAError (List Restriction × FieldMask)
  | [], rem => .ok ([], rem)
  | r :: rest, rem =>
    match Restriction.add_acquisition F node r rem with
    | .error e => .error e
    | .ok (r1, rem1) =>
      if rem1 = ∅ then .ok (r1 :: rest, rem1)
      else
        match trackerAcquire F node rest rem1 with
        | .error e => .error e
        | .ok (rest1, rem2) => .ok (r1 :: rest1, rem2)

/-- Modelled from the spec: `record_release` walks the top-level
restrictions handing the release fields to `Restriction::remove_acquisition`
until they are consumed. -/
def trackerRelease (F : Forest) (node : ℕ) :
    List Restriction → FieldMask → List Restriction × FieldMask
  | [], rem => ([], rem)
  | r :: rest, rem =>
    let res := Restriction.remove_acquisition F node r rem
    if res.2 = ∅ then (res.1 :: rest, res.2)
    else
      let res2 := trackerRelease F node rest res.2
      (res.1 :: res2.1, res2.2)

/-- Modelled from the spec: `record_detach` removes every top-level
restriction whose `Restriction::matches` succeeds, keeping the mutated
survivors. -/
def trackerDetach (node : ℕ) :
    List Restriction → FieldMask → List Restriction × FieldMask
  | [], rem => ([], rem)
  | r :: rest, rem =>
    let m := Restriction.matches r node rem
    if m.1 then trackerDetach node rest m.2.2
    else
      let res := trackerDetach node rest m.2.2
      (m.2.1 :: res.1, res.2)

/-! ## InstanceRef / InstanceSet (claims C6 and C7)

`InstanceSet` is a copy-on-write small-vector of `InstanceRef`s: a union of
either a pointer to one heap-allocated `CollectableRef` (`single` mode,
possibly NULL) or a pointer to a heap-allocated `InternalSet` holding a
vector (`multi` mode).  Both heap objects are reference counted.  The heap is
modelled explicitly so that sharing between sets is observable: a pointer is
an index into a list of cells, a freed cell is `none`, and the union
`refs.single`/`refs.multi` is one optional pointer whose interpretation
depends on the `single` flag — exactly the C++ layout. -/

/-- An `InstanceRef`: valid fields, ready event, the physical manager
(modelled by its distributed id, `none` for NULL), and the `local` flag. -/
structure InstanceRef : Type where
  valid_fields : FieldMask
  ready_event : ℕ
  manager : Option ℕ
  is_local : Bool
  deriving DecidableEq

instance : Inhabited InstanceRef :=
  ⟨{ valid_fields := ∅, ready_event := 0, manager := none, is_local := true }⟩

/-- The payload of a heap cell: a `CollectableRef` (single mode) or an
`InternalSet` vector (multi mode). -/
inductive Storage : Type where
  | single (ref : InstanceRef)
  | multi (vec : List InstanceRef)
  deriving DecidableEq

/-- A reference-counted heap cell. -/
structure Cell : Type where
  rc : ℕ
  store : Storage
  deriving DecidableEq

/-- The heap: freed cells are `none`. -/
abbrev Heap := List (Option Cell)

/-- An `InstanceSet` handle: the `single` and `shared` flags and the pointer
union (`none` models a NULL `refs.single`). -/
structure ISHandle : Type where
  single : Bool
  shared : Bool
  ptr : Option ℕ
  deriving DecidableEq

/-- Allocate a fresh cell (`new` followed by `add_reference`, so the count
starts at one). -/
def heapAlloc (h : Heap) (s : Storage) : Heap × ℕ :=
  (h ++ [some { rc := 1, store := s }], h.length)

/-- Read a cell; freed or out-of-range cells read as `none`. -/
def heapGet (h : Heap) (p : ℕ) : Option Cell :=
  (h.getD p none)

/-- Overwrite a cell, leaving the heap unchanged when the pointer is out of
range. -/
def heapSet (h : Heap) (p : ℕ) (c : Option Cell) : Heap :=
  h.set p c

/-- `add_reference` on the pointed-to cell. -/
def addRef (h : Heap) (p : ℕ) : Heap :=
  match heapGet h p with
  | some c => heapSet h p (some { c with rc := c.rc + 1 })
  | none => h

/-- `remove_reference` followed by `delete` when the count reaches zero. -/
def releaseRef (h : Heap) (p : ℕ) : Heap :=
  match heapGet h p with
  | some c =>
    if c.rc ≤ 1 then heapSet h p none
    else heapSet h p (some { c with rc := c.rc - 1 })
  | none => h

/-- Dereference a single-mode cell (`*refs.single`); junk on a freed cell or
a mode mismatch. -/
def getSingleRef (h : Heap) (p : ℕ) : InstanceRef :=
  match heapGet h p with
  | some { store := .single r, .. } => r
  | _ => default

/-- Dereference a multi-mode cell (`refs.multi->vector`). -/
def getVec (h : Heap) (p : ℕ) : List InstanceRef :=
  match heapGet h p with
  | some { store := .multi v, .. } => v
  | _ => []

/-- Overwrite the ref in a single-mode cell, keeping its count. -/
def setSingleRef (h : Heap) (p : ℕ) (r : InstanceRef) : Heap :=
  match heapGet h p with
  | some c => heapSet h p (some { rc := c.rc, store := .single r })
  | none => h

/-- Overwrite the vector in a multi-mode cell, keeping its count. -/
def setVec (h : Heap) (p : ℕ) (v : List InstanceRef) : Heap :=
  match heapGet h p with
  | some c => heapSet h p (some { rc := c.rc, store := .multi v })
  | none => h

/-- `std::vector::resize`: truncate or extend with default-constructed
refs. -/
def resizeVec (v : List InstanceRef) (n : ℕ) : List InstanceRef :=
  v.take n ++ List.replicate (n - v.length) default

/-- The `InstanceSet(init_size)` constructor. -/
def instanceSetNew (h : Heap) (n : ℕ) : Heap × ISHandle :=
  if n = 0 then (h, { single := true, shared := false, ptr := none })
  else if n = 1 then
    let al := heapAlloc h (.single default)
    (al.1, { single := true, shared := false, ptr := some al.2 })
  else
    let al := heapAlloc h (.multi (List.replicate n default))
    (al.1, { single := false, shared := false, ptr := some al.2 })

/-- The `InstanceSet` copy constructor: share the storage, mark **both**
handles shared, and bump the count (no sharing when copying an empty
single-mode set).  Returns the heap, the new handle, and the updated source
handle. -/
def instanceSetCopy (h : Heap) (rhs : ISHandle) : Heap × ISHandle × ISHandle :=
  if rhs.single ∧ rhs.ptr = none then
    (h, { single := true, shared := false, ptr := none }, rhs)
  else
    let p := rhs.ptr.getD 0
    (addRef h p, { single := rhs.single, shared := true, ptr := some p },
     { rhs with shared := true })

/-- `InstanceSet::make_copy`: clone the shared storage into a fresh cell,
drop the reference on the old one, and clear the `shared` flag. -/
def makeCopy (h : Heap) (hd : ISHandle) : Heap × ISHandle :=
  if hd.single then
    match hd.ptr with
    | none => (h, { hd with shared := false })
    | some p =>
      let al := heapAlloc h (.single (getSingleRef h p))
      (releaseRef al.1 p, { single := true, shared := false, ptr := some al.2 })
  else
    let p := hd.ptr.getD 0
    let al := heapAlloc h (.multi (getVec h p))
    (releaseRef al.1 p, { single := false, shared := false, ptr := some al.2 })

/-- Mutation through the non-const `InstanceSet::operator[]`: the operator
first calls `make_copy` when shared, then hands out a mutable reference to
the slot, which the caller assigns. -/
def setIndex (h : Heap) (hd : ISHandle) (idx : ℕ) (r : InstanceRef) :
    Heap × ISHandle :=
  let hc := if hd.shared then makeCopy h hd else (h, hd)
  if hc.2.single then
    match hc.2.ptr with
    | none => (hc.1, hc.2)
    | some p => (setSingleRef hc.1 p r, hc.2)
  else
    let p := hc.2.ptr.getD 0
    (setVec hc.1 p ((getVec hc.1 p).set idx r), hc.2)

/-- `InstanceSet::add_instance`. -/
def addInstance (h : Heap) (hd : ISHandle) (r : InstanceRef) : Heap × ISHandle :=
  if hd.single then
    match hd.ptr with
    | some p =>
      let al := heapAlloc h (.multi [getSingleRef h p, r])
      (releaseRef al.1 p, { single := false, shared := false, ptr := some al.2 })
    | none =>
      let al := heapAlloc h (.single r)
      (al.1, { single := true, shared := hd.shared, ptr := some al.2 })
  else
    let hc := if hd.shared then makeCopy h hd else (h, hd)
    let p := hc.2.ptr.getD 0
    (setVec hc.1 p (getVec hc.1 p ++ [r]), hc.2)

/-- `InstanceSet::resize`. -/
def instanceSetResize (h : Heap) (hd : ISHandle) (n : ℕ) : Heap × ISHandle :=
  if hd.single then
    if n = 0 then
      match hd.ptr with
      | some p => (releaseRef h p, { single := true, shared := false, ptr := none })
      | none => (h, { single := true, shared := false, ptr := none })
    else if n > 1 then
      match hd.ptr with
      | some p =>
        let al := heapAlloc h (.multi (getSingleRef h p :: List.replicate (n - 1) default))
        (releaseRef al.1 p, { single := false, shared := false, ptr := some al.2 })
      | none =>
        let al := heapAlloc h (.multi (List.replicate n default))
        (al.1, { single := false, shared := false, ptr := some al.2 })
    else
      match hd.ptr with
      | none =>
        let al := heapAlloc h (.single default)
        (al.1, { single := true, shared := false, ptr := some al.2 })
      | some _ => (h, hd)
  else
    if n = 0 then
      let p := hd.ptr.getD 0
      (releaseRef h p, { single := true, shared := false, ptr := none })
    else if n = 1 then
      let p := hd.ptr.getD 0
      let al := heapAlloc h (.single ((getVec h p).headD default))
      (releaseRef al.1 p, { single := true, shared := false, ptr := some al.2 })
    else
      let p := hd.ptr.getD 0
      let v := getVec h p
      if v.length = n then (h, hd)
      else if hd.shared then
        let al := heapAlloc h (.multi (resizeVec v n))
        (releaseRef al.1 p, { single := false, shared := false, ptr := some al.2 })
      else
        (setVec h p (resizeVec v n), hd)

/-- `InstanceRef::operator==`, translated clause by clause: reject differing
`valid_fields`, then differing `ready_event`, then differing `manager`
(pointer equality, here identity of the optional manager id); the `local`
flag is not compared. -/
def InstanceRef.eqv (a b : InstanceRef) : Bool :=
  if a.valid_fields ≠ b.valid_fields then false
  else if a.ready_event ≠ b.ready_event then false
  else if a.manager ≠ b.manager then false
  else true

/-- `InstanceSet::operator==`: modes must agree; in single mode pointer
equality short-circuits and NULL mismatch fails; otherwise the elements are
compared. -/
def instanceSetEq (h : Heap) (a b : ISHandle) : Bool :=
  if a.single ≠ b.single then false
  else if a.single then
    if a.ptr = b.ptr then true
    else if a.ptr = none ∨ b.ptr = none then false
    else InstanceRef.eqv (getSingleRef h (a.ptr.getD 0)) (getSingleRef h (b.ptr.getD 0))
  else
    let va := getVec h (a.ptr.getD 0)
    let vb := getVec h (b.ptr.getD 0)
    if va.length ≠ vb.length then false
    else (List.zip va vb).all fun q => InstanceRef.eqv q.1 q.2

/-- One packed `InstanceRef` on the wire: the valid fields, the ready event,
and the manager's distributed id, with 0 encoding a NULL manager. -/
structure WireRef : Type where
  valid_fields : FieldMask
  ready_event : ℕ
  did : ℕ
  deriving DecidableEq

instance : Inhabited WireRef :=
  ⟨{ valid_fields := ∅, ready_event := 0, did := 0 }⟩

/-- `InstanceRef::pack_reference`. -/
def InstanceRef.pack_reference (r : InstanceRef) : WireRef :=
  { valid_fields := r.valid_fields, ready_event := r.ready_event,
    did := match r.manager with | some d => d | none => 0 }

/-- `InstanceRef::unpack_reference`: the fields and event are overwritten
first; a did of 0 returns early, leaving the old manager in place, otherwise
the manager is looked up by id (`find_or_request_physical_manager`, which in
this model is the identity on ids) and the ref is marked non-local. -/
def InstanceRef.unpack_reference (r : InstanceRef) (w : WireRef) : InstanceRef :=
  if w.did = 0 then
    { r with valid_fields := w.valid_fields, ready_event := w.ready_event }
  else
    { valid_fields := w.valid_fields, ready_event := w.ready_event,
      manager := some w.did, is_local := false }

/-- `InstanceSet::pack_references`: the element count followed by the packed
refs (the count is the length of the emitted list). -/
def packReferences (h : Heap) (hd : ISHandle) : List WireRef :=
  if hd.single then
    match hd.ptr with
    | none => []
    | some p => [(getSingleRef h p).pack_reference]
  else (getVec h (hd.ptr.getD 0)).map InstanceRef.pack_reference

/-- `InstanceSet::unpack_references`, branch for zero incoming refs: drop
the held reference.  In multi mode the code sets `single = true` but leaves
the pointer union untouched. -/
def unpackZero (h : Heap) (hd : ISHandle) : Heap × ISHandle :=
  if hd.single then
    match hd.ptr with
    | some p => (releaseRef h p, { single := true, shared := false, ptr := none })
    | none => (h, { single := true, shared := false, ptr := none })
  else
    let p := hd.ptr.getD 0
    (releaseRef h p, { single := true, shared := false, ptr := hd.ptr })

/-- `InstanceSet::unpack_references`, branch for one incoming ref: fall back
from multi to single, allocate a `CollectableRef` only when the pointer is
NULL, then unpack **in place** into the pointed-to cell (no `make_copy` even
when shared). -/
def unpackOne (h : Heap) (hd : ISHandle) (w : WireRef) : Heap × ISHandle :=
  let st1 : Heap × ISHandle :=
    if ¬ hd.single then
      (releaseRef h (hd.ptr.getD 0), { single := true, shared := hd.shared, ptr := none })
    else (h, hd)
  let st2 : Heap × ISHandle :=
    match st1.2.ptr with
    | none =>
      let al := heapAlloc st1.1 (.single default)
      (al.1, { single := true, shared := st1.2.shared, ptr := some al.2 })
    | some _ => st1
  let p := st2.2.ptr.getD 0
  (setSingleRef st2.1 p ((getSingleRef st2.1 p).unpack_reference w),
   { single := true, shared := false, ptr := some p })

/-- `InstanceSet::unpack_references`, branch for two or more incoming refs:
from single mode allocate a fresh `InternalSet`; in multi mode resize the
(possibly shared) vector **in place**; then unpack each slot in place. -/
def unpackMany (h : Heap) (hd : ISHandle) (w : List WireRef) : Heap × ISHandle :=
  let st1 : Heap × ISHandle :=
    if hd.single then
      let h1 := match hd.ptr with | some p => releaseRef h p | none => h
      let al := heapAlloc h1 (.multi (List.replicate w.length default))
      (al.1, { single := false, shared := hd.shared, ptr := some al.2 })
    else
      let p := hd.ptr.getD 0
      (setVec h p (resizeVec (getVec h p) w.length), hd)
  let p := st1.2.ptr.getD 0
  let v1 := (List.zip (getVec st1.1 p) w).map fun q => q.1.unpack_reference q.2
  (setVec st1.1 p v1, { single := false, shared := false, ptr := some p })

/-- `InstanceSet::unpack_references` (`shared = false` on exit in every
branch). -/
def unpackReferences (h : Heap) (hd : ISHandle) (w : List WireRef) :
    Heap × ISHandle :=
  if w.length = 0 then unpackZero h hd
  else if w.length = 1 then unpackOne h hd (w.headD default)
  else unpackMany h hd w

/-- The observable view of one ref: its valid fields, ready event and
manager. -/
def refView (r : InstanceRef) : FieldMask × ℕ × Option ℕ :=
  (r.valid_fields, r.ready_event, r.manager)

/-- The observable contents of an `InstanceSet`: the views of its elements in
order. -/
def obs (h : Heap) (hd : ISHandle) : List (FieldMask × ℕ × Option ℕ) :=
  if hd.single then
    match hd.ptr with
    | none => []
    | some p => [refView (getSingleRef h p)]
  else (getVec h (hd.ptr.getD 0)).map refView

/-- `InstanceSet::size`. -/
def instanceSetSize (h : Heap) (hd : ISHandle) : ℕ :=
  if hd.single then (if hd.ptr = none then 0 else 1)
  else
    match hd.ptr with
    | none => 0
    | some p => (getVec h p).length

/-! ## Theorems -/

/-- `record_equivalence_set` preserves the reference-count invariant: every
stored set holds exactly one `VERSION_INFO_REF` on top of its baseline. -/
theorem recordEquivalenceSet_inv (base : ℕ → ℕ) (st : VersionInfoState) (x : ℕ)
    (h : ∀ s, st.refs s = base s + (if s ∈ st.equivalence_sets then 1 else 0)) :
    ∀ s, (recordEquivalenceSet st x).refs s =
      base s + (if s ∈ (recordEquivalenceSet st x).equivalence_sets then 1 else 0) := by
  intro s
  unfold recordEquivalenceSet
  by_cases hx : x ∈ st.equivalence_sets
  · simp only [hx, if_true]
    exact h s
  · simp only [hx, if_false]
    by_cases hs : s = x
    · subst hs
      simp [h s, hx]
    · simp [hs, h s, Finset.mem_insert]

/-- `clear` preserves the reference-count invariant. -/
theorem clearVersionInfo_inv (base : ℕ → ℕ) (st : VersionInfoState)
    (h : ∀ s, st.refs s = base s + (if s ∈ st.equivalence_sets then 1 else 0)) :
    ∀ s, (clearVersionInfo st).refs s =
      base s + (if s ∈ (clearVersionInfo st).equivalence_sets then 1 else 0) := by
  intro s
  unfold clearVersionInfo
  by_cases hs : s ∈ st.equivalence_sets
  · simp [hs, h s]
  · simp [hs, h s]

/-- Any sequence of `record_equivalence_set`/`clear` calls preserves the
reference-count invariant. -/
theorem runVIOps_inv (base : ℕ → ℕ) (ops : List VIOp) :
    ∀ st : VersionInfoState,
      (∀ s, st.refs s = base s + (if s ∈ st.equivalence_sets then 1 else 0)) →
      ∀ s, (runVIOps st ops).refs s =
        base s + (if s ∈ (runVIOps st ops).equivalence_sets then 1 else 0) := by
  induction ops with
  | nil => intro st h s; exact h s
  | cons op rest ih =>
    intro st h s
    cases op with
    | record x => exact ih (recordEquivalenceSet st x) (recordEquivalenceSet_inv base st x h) s
    | clear => exact ih (clearVersionInfo st) (clearVersionInfo_inv base st h) s

/-- C10: after any sequence of `record_equivalence_set` and `clear` calls
starting from an empty `VersionInfo`, each stored equivalence set holds
exactly one `VERSION_INFO_REF` reference from this `VersionInfo` above its
baseline and non-stored sets hold none; `record_equivalence_set` is
idempotent, and `clear` empties the snapshot, removing exactly one reference
per stored set and leaving the others untouched. -/
theorem C10_version_info_reference_invariant :
    ∀ (base : ℕ → ℕ) (ops : List VIOp),
      (∀ s, (runVIOps ⟨∅, base⟩ ops).refs s =
        base s + (if s ∈ (runVIOps ⟨∅, base⟩ ops).equivalence_sets then 1 else 0)) ∧
      (∀ (st : VersionInfoState) (x : ℕ),
        recordEquivalenceSet (recordEquivalenceSet st x) x = recordEquivalenceSet st x) ∧
      (∀ st : VersionInfoState, (clearVersionInfo st).equivalence_sets = ∅) ∧
      (∀ (st : VersionInfoState) (x : ℕ), x ∈ st.equivalence_sets →
        (clearVersionInfo st).refs x = st.refs x - 1) ∧
      (∀ (st : VersionInfoState) (x : ℕ), x ∉ st.equivalence_sets →
        (clearVersionInfo st).refs x = st.refs x) := by
  intro base ops
  refine ⟨runVIOps_inv base ops ⟨∅, base⟩ (by intro s; simp), ?_, ?_, ?_, ?_⟩
  · intro st x
    unfold recordEquivalenceSet
    by_cases hx : x ∈ st.equivalence_sets
    · simp [hx]
    · simp [hx]
  · intro st
    simp [clearVersionInfo]
  · intro st x hx
    simp [clearVersionInfo, hx]
  · intro st x hx
    simp [clearVersionInfo, hx]

/-- C10 witness: a concrete run — record 3 twice, clear, record 4 — leaves
set 4 with exactly one extra reference, and the hypothesis-bearing parts of
the theorem hold at concrete inputs. -/
theorem C10_version_info_reference_invariant_witness :
    ((runVIOps ⟨∅, fun _ => 5⟩ [.record 3, .record 3, .clear, .record 4]).refs 4 =
      5 + (if 4 ∈ (runVIOps ⟨∅, fun _ => 5⟩
        [.record 3, .record 3, .clear, .record 4]).equivalence_sets then 1 else 0)) ∧
    ((3 : ℕ) ∈ ({3} : Finset ℕ) ∧
      (clearVersionInfo ⟨{3}, fun _ => 7⟩).refs 3 = 7 - 1) :=
  ⟨(C10_version_info_reference_invariant (fun _ => 5)
      [.record 3, .record 3, .clear, .record 4]).1 4,
   ⟨by decide,
    (C10_version_info_reference_invariant (fun _ => 5) []).2.2.2.1
      ⟨{3}, fun _ => 7⟩ 3 (by decide)⟩⟩

/-- C1: `VersionInfo::make_ready` requests exclusive access to every recorded
equivalence set exactly when the usage is writing (`ReadWrite`,
`WriteDiscard`, or any reducing usage — modelled from the spec, the
`IS_WRITE` macro being declared outside this translation unit), and shared
access otherwise. -/
theorem C1_make_ready_exclusive_iff_writing :
    ∀ (st : VersionInfoState) (u : RegionUsage) (s : ℕ),
      s ∈ st.equivalence_sets →
      (makeReadyMode st u s = some true ↔
        (u.privilege = .ReadWrite ∨ u.privilege = .WriteDiscard ∨
          u.privilege = .Reduce)) ∧
      (makeReadyMode st u s = some false ↔
        (u.privilege = .NoAccess ∨ u.privilege = .ReadOnly)) := by
  intro st u s hs
  constructor
  · simp only [makeReadyMode, hs, if_true, Option.some.injEq, IS_WRITE]
    cases u.privilege <;> simp
  · simp only [makeReadyMode, hs, if_true, Option.some.injEq, IS_WRITE]
    cases u.privilege <;> simp

/-- C1 witness: a reducing usage on a recorded set is requested
exclusively. -/
theorem C1_make_ready_exclusive_iff_writing_witness :
    makeReadyMode ⟨{7}, fun _ => 0⟩ ⟨.Reduce, 3⟩ 7 = some true :=
  ((C1_make_ready_exclusive_iff_writing ⟨{7}, fun _ => 0⟩ ⟨.Reduce, 3⟩ 7
    (by decide)).1).mpr (Or.inr (Or.inr rfl))

/-- C9: context invalidation is idempotent: `LogicalState::reset` and
`VersionManager::reset` applied twice yield the same state as applied once,
the once-reset state having empty field states, user lists, reduction
fields and projection epochs, respectively no equivalence sets, no ready
event and a false `has_equivalence_sets` flag. -/
theorem C9_invalidate_idempotent :
    (∀ s : LogicalState,
      s.reset.reset = s.reset ∧
      s.reset.field_states = [] ∧ s.reset.curr_epoch_users = [] ∧
      s.reset.prev_epoch_users = [] ∧ s.reset.reduction_fields = ∅ ∧
      s.reset.outstanding_reductions = [] ∧ s.reset.projection_epochs = []) ∧
    (∀ m : VersionManagerState,
      m.reset.reset = m.reset ∧
      m.reset.equivalence_sets = ∅ ∧ m.reset.equivalence_sets_ready = none ∧
      m.reset.has_equivalence_sets = false ∧ m.reset.is_owner = false ∧
      m.reset.current_context = none) := by
  constructor
  · intro s
    exact ⟨rfl, rfl, rfl, rfl, rfl, rfl, rfl⟩
  · intro m
    refine ⟨?_, rfl, rfl, rfl, rfl, rfl⟩
    simp [VersionManagerState.reset]

/-- C3 counterexample: two field states agreeing on `open_state`, `redop`,
projection and projection space for which `overlaps` nevertheless returns
false (a non-zero `redop` makes the code compare `valid_fields` instead of
`open_state`). -/
theorem C3_overlaps_counterexample :
    FieldState.overlaps
      ⟨{0}, .OPEN_SINGLE_REDUCE, 5, none, none, []⟩
      ⟨{1}, .OPEN_SINGLE_REDUCE, 5, none, none, []⟩ = false ∧
    FieldState.overlaps
      ⟨{0}, .OPEN_SINGLE_REDUCE, 5, none, none, []⟩
      ⟨{0}, .OPEN_MULTI_REDUCE, 5, none, none, []⟩ = true := by
  decide

/-- C3 amended: `FieldState::overlaps` returns true iff the two states have
the same `redop`, the same projection, the same projection space when a
projection is present, and — when `redop` is zero — the same `open_state`,
while for a non-zero `redop` it instead requires the same `valid_fields`
(the open states are not compared). -/
theorem C3_overlaps_characterization :
    ∀ l r : FieldState,
      l.overlaps r = true ↔
        (l.redop = r.redop ∧ l.projection = r.projection ∧
          (l.projection ≠ none → l.projection_space = r.projection_space) ∧
          ((l.redop = 0 ∧ l.open_state = r.open_state) ∨
            (l.redop ≠ 0 ∧ l.valid_fields = r.valid_fields))) := by
  intro l r
  unfold FieldState.overlaps
  by_cases h1 : l.redop = r.redop
  · by_cases h2 : l.projection = r.projection
    · by_cases h3 : l.projection ≠ none ∧ l.projection_space ≠ r.projection_space
      · rw [if_neg (by simp [h1]), if_neg (by simp [h2]), if_pos h3]
        simp only [Bool.false_eq_true, false_iff]
        rintro ⟨_, _, hps, _⟩
        exact h3.2 (hps h3.1)
      · rw [if_neg (by simp [h1]), if_neg (by simp [h2]), if_neg h3]
        push_neg at h3
        by_cases h4 : l.redop = 0
        · rw [if_pos h4]
          simp only [decide_eq_true_eq]
          constructor
          · intro ho
            exact ⟨h1, h2, h3, Or.inl ⟨h4, ho⟩⟩
          · rintro ⟨_, _, _, hcase⟩
            rcases hcase with ⟨_, ho⟩ | ⟨hne, _⟩
            · exact ho
            · exact absurd h4 hne
        · rw [if_neg h4]
          simp only [decide_eq_true_eq]
          constructor
          · intro hv
            exact ⟨h1, h2, h3, Or.inr ⟨h4, hv⟩⟩
          · rintro ⟨_, _, _, hcase⟩
            rcases hcase with ⟨hz, _⟩ | ⟨_, hv⟩
            · exact absurd hz h4
            · exact hv
    · rw [if_neg (by simp [h1]), if_pos (by simp [h2])]
      simp only [Bool.false_eq_true, false_iff]
      rintro ⟨_, hp, _⟩
      exact h2 hp
  · rw [if_pos (by simp [h1])]
    simp only [Bool.false_eq_true, false_iff]
    rintro ⟨hr, _⟩
    exact h1 hr

/-- C2 counterexample: a release whose mask `{0}` covers a strict subset of
the acquisition's acquired fields `{0, 1}` does *not* leave
`acquired_fields` unchanged — `Acquisition::matches` subtracts the overlap,
returning false with the remnant `{1}`. -/
theorem C2_release_counterexample :
    (Acquisition.matches (.mk 1 {0, 1} []) 1 {0}).1 = false ∧
    (Acquisition.matches (.mk 1 {0, 1} []) 1 {0}).2.1 = {1} ∧
    ({0} : FieldMask) ⊂ {0, 1} := by
  refine ⟨?_, ?_, by decide⟩ <;> rfl

/-- The fold of `Acquisition::matches` over nested restrictions leaves the
overlap unchanged when every nested restriction is field-disjoint from
it. -/
theorem foldl_sdiff_of_disjoint (restrs : List Restriction) (ov : FieldMask)
    (h : ∀ r ∈ restrs, Disjoint r.restricted_fields ov) :
    restrs.foldl (fun o r => o \ r.restricted_fields) ov = ov := by
  induction restrs with
  | nil => rfl
  | cons r rest ih =>
    have hr : ov \ r.restricted_fields = ov :=
      Finset.sdiff_eq_self_of_disjoint ((h r (by simp)).symm)
    simp only [List.foldl_cons, hr]
    exact ih fun x hx => h x (by simp [hx])

/-- C2 amended: for a release applied at an `Acquisition`'s own node whose
mask overlaps the acquired fields, with none of the overlap re-restricted
below, `matches` returns true exactly when the mask covers all the acquired
fields; the overlap is removed from the acquired fields (and from the
release mask) in every case, so a strict-subset release leaves the
acquisition in place with the remnant `acquired_fields`. -/
theorem C2_release_matches_characterization :
    ∀ (ln : ℕ) (acq : FieldMask) (restrs : List Restriction) (remaining : FieldMask),
      remaining ∩ acq ≠ ∅ →
      (∀ r ∈ restrs, Disjoint r.restricted_fields (remaining ∩ acq)) →
      ((Acquisition.matches (.mk ln acq restrs) ln remaining).1 = true ↔
        acq ⊆ remaining) ∧
      (Acquisition.matches (.mk ln acq restrs) ln remaining).2.1 = acq \ remaining ∧
      (Acquisition.matches (.mk ln acq restrs) ln remaining).2.2 = remaining \ acq := by
  intro ln acq restrs remaining hov hdis
  have hfold := foldl_sdiff_of_disjoint restrs (remaining ∩ acq) hdis
  have h1 : acq \ (remaining ∩ acq) = acq \ remaining := by
    rw [Finset.sdiff_inter_self_right]
  have h2 : remaining \ (remaining ∩ acq) = remaining \ acq := by
    rw [Finset.sdiff_inter_self_left]
  simp only [Acquisition.matches, ne_eq, not_true_eq_false, if_false, hfold,
    if_neg hov]
  refine ⟨?_, h1, h2⟩
  simp only [decide_eq_true_eq, h1]
  exact Finset.sdiff_eq_empty_iff_subset

/-- C2 witness: a release covering all acquired fields matches, emptying the
acquired fields. -/
theorem C2_release_matches_characterization_witness :
    (({0, 1, 2} : FieldMask) ∩ {0, 1} ≠ ∅ ∧
      (∀ r ∈ ([] : List Restriction),
        Disjoint r.restricted_fields (({0, 1, 2} : FieldMask) ∩ {0, 1}))) ∧
    ((Acquisition.matches (.mk 1 {0, 1} []) 1 {0, 1, 2}).1 = true ↔
      ({0, 1} : FieldMask) ⊆ {0, 1, 2}) :=
  ⟨⟨by decide, by simp⟩,
   (C2_release_matches_characterization 1 {0, 1} [] {0, 1, 2}
     (by decide) (by simp)).1⟩

/-- C5: starting from a tracker holding exactly one `Restriction` at region
`R` with non-empty fields `f`, an acquire at `(R, f)` records a single
`Acquisition`, the following release at `(R, f)` matches and removes it, and
the final detach at `(R, f)` matches and removes the `Restriction`, leaving
the tracker empty (the per-context coordinator driving the three
per-restriction calls is modelled from the spec). -/
theorem C5_attach_acquire_release_detach_empties :
    ∀ (F : Forest) (R : ℕ) (f : FieldMask) (insts : List (ℕ × FieldMask)),
      f ≠ ∅ → F.dominates R R = true → F.intersects_with R R = true →
      trackerAcquire F R [.mk R f insts []] f =
        .ok ([.mk R f insts [.mk R f []]], ∅) ∧
      trackerRelease F R [.mk R f insts [.mk R f []]] f =
        ([.mk R f insts []], ∅) ∧
      trackerDetach R [.mk R f insts []] f = ([], ∅) := by
  intro F R f insts hf hdom hint
  have hsd : f \ f = ∅ := Finset.sdiff_self f
  have hndis : ¬ Disjoint f f := by
    rw [disjoint_self]
    simpa using hf
  have ha : Restriction.add_acquisition F R (.mk R f insts []) f =
      .ok (.mk R f insts [.mk R f []], ∅) := by
    simp only [Restriction.add_acquisition, Finset.inter_self, goAcquireAcqs]
    rw [if_neg hf, if_neg (by simp [hdom]), if_neg hf]
    simp [hsd]
  have hm : Acquisition.matches (.mk R f []) R f = (true, ∅, ∅) := by
    simp only [Acquisition.matches, List.foldl_nil, Finset.inter_self]
    rw [if_neg (by simp), if_neg hf, if_neg hf]
    simp [hsd]
  have hra : Restriction.remove_acquisition F R (.mk R f insts [.mk R f []]) f =
      (.mk R f insts [], ∅) := by
    simp only [Restriction.remove_acquisition, goReleaseAcqs, hm]
    rw [if_neg hndis, if_neg (by simp [hint])]
    simp
  have hdm : Restriction.matches (.mk R f insts []) R f =
      (true, .mk R ∅ insts [], ∅) := by
    simp only [Restriction.matches, List.foldl_nil, Finset.inter_self]
    rw [if_neg (by simp), if_neg hf, if_neg hf]
    simp [hsd]
  refine ⟨?_, ?_, ?_⟩
  · simp only [trackerAcquire, ha]
    simp
  · simp only [trackerRelease, hra]
    simp
  · simp only [trackerDetach, hdm]
    simp [trackerDetach]

/-- C5 witness: the sequence at a concrete forest, region and field set. -/
theorem C5_attach_acquire_release_detach_empties_witness :
    (({0} : FieldMask) ≠ ∅ ∧
      (Forest.mk (fun _ _ => true) (fun _ _ => true)).dominates 0 0 = true) ∧
    trackerDetach 0 [.mk 0 {0} [] []] {0} = ([], ∅) :=
  ⟨⟨by decide, rfl⟩,
   (C5_attach_acquire_release_detach_empties
     (Forest.mk (fun _ _ => true) (fun _ _ => true)) 0 {0} []
     (by decide) rfl rfl).2.2⟩

/-- `allAcquiredAList` distributes over append. -/
theorem allAcquiredAList_append (xs ys : List Acquisition) :
    allAcquiredAList (xs ++ ys) = allAcquiredAList xs ∪ allAcquiredAList ys := by
  induction xs with
  | nil => simp [allAcquiredAList]
  | cons a rest ih =>
    simp [allAcquiredAList, ih, Finset.union_assoc]

mutual

/-- Accounting for `Restriction::add_acquisition`: a successful acquire
consumes a subset of the remaining fields and records exactly the consumed
fields among the subtree's acquired fields. -/
theorem addAcqR_account (F : Forest) (node : ℕ) (r : Restriction)
    (rem : FieldMask) :
    ∀ r1 rem1, Restriction.add_acquisition F node r rem = .ok (r1, rem1) →
      rem1 ⊆ rem ∧ allAcquiredR r1 = allAcquiredR r ∪ (rem \ rem1) := by
  cases r with
  | mk ln rf insts acqs =>
    intro r1 rem1 h
    rw [Restriction.add_acquisition] at h
    by_cases hov : rf ∩ rem = ∅
    · rw [if_pos hov] at h
      simp only [Except.ok.injEq, Prod.mk.injEq] at h
      obtain ⟨h1, h2⟩ := h
      subst h1; subst h2
      simp
    · rw [if_neg hov] at h
      by_cases hdom : F.dominates ln node = true
      · rw [if_neg (not_not_intro hdom)] at h
        rcases hgo : goAcquireAcqs F node acqs (rf ∩ rem) with e | p
        · rw [hgo] at h
          simp at h
        · obtain ⟨acqs1, ov1⟩ := p
          rw [hgo] at h
          dsimp only at h
          have hacc := goAcqsAccount F node acqs (rf ∩ rem) acqs1 ov1 hgo
          have hsub : ∀ x, x ∈ ov1 → x ∈ rf ∩ rem := fun x hx => hacc.1 hx
          by_cases hov1 : ov1 = ∅
          · rw [if_pos hov1] at h
            simp only [Except.ok.injEq, Prod.mk.injEq] at h
            obtain ⟨h1, h2⟩ := h
            subst h1; subst h2
            refine ⟨Finset.sdiff_subset, ?_⟩
            simp only [allAcquiredR, hacc.2, hov1]
            ext x
            simp only [Finset.mem_union, Finset.mem_sdiff, Finset.mem_inter,
              Finset.not_mem_empty, not_false_iff, and_true]
            tauto
          · rw [if_neg hov1] at h
            simp only [Except.ok.injEq, Prod.mk.injEq] at h
            obtain ⟨h1, h2⟩ := h
            subst h1; subst h2
            refine ⟨Finset.sdiff_subset, ?_⟩
            simp only [allAcquiredR, allAcquiredAList_append, hacc.2,
              allAcquiredAList, allAcquiredA, allAcquiredRList]
            ext x
            have hx := hsub x
            simp only [Finset.mem_union, Finset.mem_sdiff, Finset.mem_inter,
              Finset.not_mem_empty, or_false, Finset.union_empty] at hx ⊢
            tauto
      · rw [if_pos (by simpa using hdom)] at h
        by_cases hint : F.intersects_with ln node = true
        · rw [if_pos hint] at h
          simp at h
        · rw [if_neg hint] at h
          simp only [Except.ok.injEq, Prod.mk.injEq] at h
          obtain ⟨h1, h2⟩ := h
          subst h1; subst h2
          simp
termination_by depthR r
decreasing_by
simp only [depthR]
omega

/-- Accounting for the acquisition loop of `Restriction::add_acquisition`. -/
theorem goAcqsAccount (F : Forest) (node : ℕ) (acqs : List Acquisition)
    (ov : FieldMask) :
    ∀ acqs1 ov1, goAcquireAcqs F node acqs ov = .ok (acqs1, ov1) →
      ov1 ⊆ ov ∧ allAcquiredAList acqs1 = allAcquiredAList acqs ∪ (ov \ ov1) := by
  cases acqs with
  | nil =>
    intro acqs1 ov1 h
    rw [goAcquireAcqs] at h
    simp only [Except.ok.injEq, Prod.mk.injEq] at h
    obtain ⟨h1, h2⟩ := h
    subst h1; subst h2
    simp
  | cons a rest =>
    intro acqs1 ov1 h
    rw [goAcquireAcqs] at h
    rcases ha : Acquisition.add_acquisition F node a ov with e | p
    · rw [ha] at h
      simp at h
    · obtain ⟨a1, ovA⟩ := p
      rw [ha] at h
      dsimp only at h
      have hacc1 := addAcqA_account F node a ov a1 ovA ha
      have hs1 : ∀ x, x ∈ ovA → x ∈ ov := fun x hx => hacc1.1 hx
      by_cases hA : ovA = ∅
      · rw [if_pos hA] at h
        simp only [Except.ok.injEq, Prod.mk.injEq] at h
        obtain ⟨h1, h2⟩ := h
        subst h1; subst h2
        refine ⟨by simp [hA], ?_⟩
        simp only [allAcquiredAList, hacc1.2, hA]
        ext x
        simp only [Finset.mem_union, Finset.mem_sdiff, Finset.not_mem_empty,
          not_false_iff, and_true]
        tauto
      · rw [if_neg hA] at h
        rcases hgo : goAcquireAcqs F node rest ovA with e | q
        · rw [hgo] at h
          simp at h
        · obtain ⟨rest1, ov2⟩ := q
          rw [hgo] at h
          dsimp only at h
          have hacc2 := goAcqsAccount F node rest ovA rest1 ov2 hgo
          have hs2 : ∀ x, x ∈ ov2 → x ∈ ovA := fun x hx => hacc2.1 hx
          simp only [Except.ok.injEq, Prod.mk.injEq] at h
          obtain ⟨h1, h2⟩ := h
          subst h1; subst h2
          refine ⟨hacc2.1.trans hacc1.1, ?_⟩
          simp only [allAcquiredAList, hacc1.2, hacc2.2]
          ext x
          have hx1 := hs1 x
          have hx2 := hs2 x
          simp only [Finset.mem_union, Finset.mem_sdiff] at hx1 hx2 ⊢
          tauto
termination_by depthAList acqs
decreasing_by
all_goals simp only [depthAList]
all_goals omega

/-- Accounting for `Acquisition::add_acquisition`. -/
theorem addAcqA_account (F : Forest) (node : ℕ) (a : Acquisition)
    (rem : FieldMask) :
    ∀ a1 rem1, Acquisition.add_acquisition F node a rem = .ok (a1, rem1) →
      rem1 ⊆ rem ∧ allAcquiredA a1 = allAcquiredA a ∪ (rem \ rem1) := by
  cases a with
  | mk ln acq restrs =>
    intro a1 rem1 h
    rw [Acquisition.add_acquisition] at h
    by_cases hdis : Disjoint acq rem
    · rw [if_pos hdis] at h
      simp only [Except.ok.injEq, Prod.mk.injEq] at h
      obtain ⟨h1, h2⟩ := h
      subst h1; subst h2
      simp
    · rw [if_neg hdis] at h
      by_cases hint : F.intersects_with ln node = true
      · rw [if_neg (not_not_intro hint)] at h
        rcases hgo : goAcquireRestrs F node restrs rem with e | p
        · rw [hgo] at h
          simp at h
        · obtain ⟨restrs1, remA⟩ := p
          rw [hgo] at h
          dsimp only at h
          have hacc := goRestrsAccount F node restrs rem restrs1 remA hgo
          by_cases hA : remA = ∅
          · rw [if_pos hA] at h
            simp only [Except.ok.injEq, Prod.mk.injEq] at h
            obtain ⟨h1, h2⟩ := h
            subst h1; subst h2
            refine ⟨by simp [hA], ?_⟩
            simp only [allAcquiredA, hacc.2, hA]
            ext x
            simp only [Finset.mem_union, Finset.mem_sdiff, Finset.not_mem_empty,
              not_false_iff, and_true]
            tauto
          · rw [if_neg hA] at h
            simp at h
      · rw [if_pos (by simpa using hint)] at h
        simp only [Except.ok.injEq, Prod.mk.injEq] at h
        obtain ⟨h1, h2⟩ := h
        subst h1; subst h2
        simp
termination_by depthA a
decreasing_by
simp only [depthA]
omega

/-- Accounting for the restriction loop of `Acquisition::add_acquisition`. -/
theorem goRestrsAccount (F : Forest) (node : ℕ) (restrs : List Restriction)
    (rem : FieldMask) :
    ∀ restrs1 rem1, goAcquireRestrs F node restrs rem = .ok (restrs1, rem1) →
      rem1 ⊆ rem ∧ allAcquiredRList restrs1 = allAcquiredRList restrs ∪ (rem \ rem1) := by
  cases restrs with
  | nil =>
    intro restrs1 rem1 h
    rw [goAcquireRestrs] at h
    simp only [Except.ok.injEq, Prod.mk.injEq] at h
    obtain ⟨h1, h2⟩ := h
    subst h1; subst h2
    simp
  | cons r rest =>
    intro restrs1 rem1 h
    rw [goAcquireRestrs] at h
    rcases hr : Restriction.add_acquisition F node r rem with e | p
    · rw [hr] at h
      simp at h
    · obtain ⟨r1, remA⟩ := p
      rw [hr] at h
      dsimp only at h
      have hacc1 := addAcqR_account F node r rem r1 remA hr
      have hs1 : ∀ x, x ∈ remA → x ∈ rem := fun x hx => hacc1.1 hx
      by_cases hA : remA = ∅
      · rw [if_pos hA] at h
        simp only [Except.ok.injEq, Prod.mk.injEq] at h
        obtain ⟨h1, h2⟩ := h
        subst h1; subst h2
        refine ⟨by simp [hA], ?_⟩
        simp only [allAcquiredRList, hacc1.2, hA]
        ext x
        simp only [Finset.mem_union, Finset.mem_sdiff, Finset.not_mem_empty,
          not_false_iff, and_true]
        tauto
      · rw [if_neg hA] at h
        rcases hgo : goAcquireRestrs F node rest remA with e | q
        · rw [hgo] at h
          simp at h
        · obtain ⟨rest1, rem2⟩ := q
          rw [hgo] at h
          dsimp only at h
          have hacc2 := goRestrsAccount F node rest remA rest1 rem2 hgo
          have hs2 : ∀ x, x ∈ rem2 → x ∈ remA := fun x hx => hacc2.1 hx
          simp only [Except.ok.injEq, Prod.mk.injEq] at h
          obtain ⟨h1, h2⟩ := h
          subst h1; subst h2
          refine ⟨hacc2.1.trans hacc1.1, ?_⟩
          simp only [allAcquiredRList, hacc1.2, hacc2.2]
          ext x
          have hx1 := hs1 x
          have hx2 := hs2 x
          simp only [Finset.mem_union, Finset.mem_sdiff] at hx1 hx2 ⊢
          tauto
termination_by depthRList restrs
decreasing_by
all_goals simp only [depthRList]
all_goals omega

end

/-- C4 counterexample: a second acquire of the same fields at a dominated
node is *not* recorded without error — the fields are already held by an
`Acquisition` that cannot push them to a nested restriction, so the
interfering-acquire error is reported even though the restriction's node
dominates the acquire node and the overlap is non-empty. -/
theorem C4_acquire_counterexample :
    Restriction.add_acquisition (Forest.mk (fun _ _ => true) (fun _ _ => true)) 0
      (.mk 0 {0} [] [.mk 0 {0} []]) {0} = .error .IllegalInterferingAcquire ∧
    (Forest.mk (fun _ _ => true) (fun _ _ => true)).dominates 0 0 = true ∧
    (({0} : FieldMask) ∩ {0}) ≠ ∅ := by
  refine ⟨?_, rfl, by decide⟩
  have h1 : Acquisition.add_acquisition
      (Forest.mk (fun _ _ => true) (fun _ _ => true)) 0
      (.mk 0 {0} []) {0} = .error .IllegalInterferingAcquire := by
    rw [Acquisition.add_acquisition]
    rw [if_neg (by simp [Finset.disjoint_left])]
    rw [if_neg (not_not_intro rfl)]
    rw [goAcquireRestrs]
    dsimp only
    rw [if_neg (by decide)]
  rw [Restriction.add_acquisition]
  simp only [Finset.inter_self]
  rw [if_neg (by decide)]
  rw [if_neg (by simp)]
  rw [goAcquireAcqs, h1]

/-- C4 amended: given a non-empty overlap between the acquire mask and a
`Restriction`'s restricted fields, `Restriction::add_acquisition` reports
the illegal-partial-acquire error from its own dominance check exactly when
its node does not dominate but intersects the acquire node (and passes
through unchanged when it does not even intersect); when its node dominates,
the overlap is removed from the remaining fields and — unless the nested
traversal reports an interfering-acquire (or nested partial-acquire) error —
recorded among the acquired fields of a new or nested `Acquisition`. -/
theorem C4_acquire_characterization :
    ∀ (F : Forest) (node : ℕ) (r : Restriction) (rem : FieldMask),
      r.restricted_fields ∩ rem ≠ ∅ →
      ((F.dominates r.local_node node = false ∧
          F.intersects_with r.local_node node = true) →
        Restriction.add_acquisition F node r rem = .error .IllegalPartialAcquire) ∧
      ((F.dominates r.local_node node = false ∧
          F.intersects_with r.local_node node = false) →
        Restriction.add_acquisition F node r rem = .ok (r, rem)) ∧
      (F.dominates r.local_node node = true →
        ∀ r1 rem1, Restriction.add_acquisition F node r rem = .ok (r1, rem1) →
          rem1 = rem \ r.restricted_fields ∧
          allAcquiredR r1 = allAcquiredR r ∪ (r.restricted_fields ∩ rem)) := by
  intro F node r rem hov
  cases r with
  | mk ln rf insts acqs =>
    simp only [Restriction.restricted_fields, Restriction.local_node] at hov ⊢
    have hcap : rem \ (rem \ (rf ∩ rem)) = rf ∩ rem := by
      rw [Finset.sdiff_sdiff_self_left]
      rw [Finset.inter_eq_right]
      exact Finset.inter_subset_right
    have hrem : rem \ (rf ∩ rem) = rem \ rf := by
      rw [Finset.inter_comm, Finset.sdiff_inter_self_left]
    refine ⟨?_, ?_, ?_⟩
    · rintro ⟨hd, hi⟩
      rw [Restriction.add_acquisition, if_neg hov, if_pos (by simp [hd]),
        if_pos hi]
    · rintro ⟨hd, hi⟩
      rw [Restriction.add_acquisition, if_neg hov, if_pos (by simp [hd]),
        if_neg (by simp [hi])]
    · intro hd r1 rem1 h
      have hacc := addAcqR_account F node (.mk ln rf insts acqs) rem r1 rem1 h
      rw [Restriction.add_acquisition, if_neg hov,
        if_neg (not_not_intro hd)] at h
      rcases hgo : goAcquireAcqs F node acqs (rf ∩ rem) with e | p
      · rw [hgo] at h
        simp at h
      · obtain ⟨acqs1, ov1⟩ := p
        rw [hgo] at h
        dsimp only at h
        have hrem1 : rem1 = rem \ rf := by
          split_ifs at h <;>
            (simp only [Except.ok.injEq, Prod.mk.injEq] at h
             rw [← h.2, hrem])
        refine ⟨hrem1, ?_⟩
        rw [hacc.2, hrem1, ← hrem, hcap]

/-- C4 witness: a first acquire at a dominating node succeeds, consuming the
fields and recording them in a new `Acquisition`. -/
theorem C4_acquire_characterization_witness :
    ((Restriction.mk 0 {0} [] [] : Restriction).restricted_fields ∩ {0} ≠ ∅ ∧
      (Forest.mk (fun _ _ => true) (fun _ _ => true)).dominates 0 0 = true) ∧
    ((∅ : FieldMask) = {0} \ (Restriction.mk 0 {0} [] []).restricted_fields ∧
      allAcquiredR (.mk 0 {0} [] [.mk 0 {0} []]) =
        allAcquiredR (.mk 0 {0} [] []) ∪
          ((Restriction.mk 0 {0} [] []).restricted_fields ∩ {0})) := by
  refine ⟨⟨by decide, rfl⟩, ?_⟩
  have heval : Restriction.add_acquisition
      (Forest.mk (fun _ _ => true) (fun _ _ => true)) 0
      (.mk 0 {0} [] []) {0} = .ok (.mk 0 {0} [] [.mk 0 {0} []], ∅) := by
    rw [Restriction.add_acquisition]
    simp only [Finset.inter_self]
    rw [if_neg (by decide)]
    rw [if_neg (by simp)]
    rw [goAcquireAcqs]
    dsimp only
    rw [if_neg (by decide)]
    simp
  exact (C4_acquire_characterization
    (Forest.mk (fun _ _ => true) (fun _ _ => true)) 0
    (.mk 0 {0} [] []) {0} (by decide)).2.2 rfl
    (.mk 0 {0} [] [.mk 0 {0} []]) ∅ heval

/-- Membership in the `to_add` accumulator after a `mapInsert`. -/
theorem mapInsert_mem (k : ℕ) (m : FieldMask) (t : List (ℕ × FieldMask))
    (j f : ℕ) :
    (∃ q ∈ mapInsert k m t, q.1 = j ∧ f ∈ q.2) ↔
      ((j = k ∧ f ∈ m) ∨ (∃ q ∈ t, q.1 = j ∧ f ∈ q.2)) := by
  induction t with
  | nil =>
    rw [mapInsert]
    simp only [List.exists_mem_cons_iff, List.not_mem_nil, false_and,
      exists_false, or_false]
    aesop
  | cons q0 rest ih =>
    obtain ⟨k0, m0⟩ := q0
    simp only [mapInsert]
    split_ifs with h1 h2
    · subst h1
      simp only [List.exists_mem_cons_iff, Finset.mem_union]
      aesop
    · simp only [List.exists_mem_cons_iff]
      aesop
    · simp only [List.exists_mem_cons_iff, ih]
      aesop

/-- Every key in a `mapInsert` result is the inserted key or an original
key. -/
theorem mapInsert_keys (k : ℕ) (m : FieldMask) (t : List (ℕ × FieldMask)) :
    ∀ q ∈ mapInsert k m t, q.1 = k ∨ q.1 ∈ t.map Prod.fst := by
  induction t with
  | nil =>
    intro q hq
    rw [mapInsert, List.mem_singleton] at hq
    exact Or.inl (by rw [hq])
  | cons q0 rest ih =>
    obtain ⟨k0, m0⟩ := q0
    intro q hq
    simp only [mapInsert] at hq
    split_ifs at hq with h1 h2
    · subst h1
      rcases List.mem_cons.mp hq with h | h
      · exact Or.inl (by rw [h])
      · right
        simp only [List.map_cons, List.mem_cons]
        exact Or.inr (List.mem_map_of_mem Prod.fst h)
    · rcases List.mem_cons.mp hq with h | h
      · exact Or.inl (by rw [h])
      · rcases List.mem_cons.mp h with h3 | h3
        · right
          simp [h3]
        · right
          simp only [List.map_cons, List.mem_cons]
          exact Or.inr (List.mem_map_of_mem Prod.fst h3)
    · rcases List.mem_cons.mp hq with h | h
      · right
        simp [h]
      · rcases ih q h with h3 | h3
        · exact Or.inl h3
        · right
          simp only [List.map_cons, List.mem_cons]
          exact Or.inr h3

/-- `mapInsert` keeps the accumulator's keys strictly sorted. -/
theorem mapInsert_sorted (k : ℕ) (m : FieldMask) (t : List (ℕ × FieldMask))
    (h : t.Pairwise (fun a b => a.1 < b.1)) :
    (mapInsert k m t).Pairwise (fun a b => a.1 < b.1) := by
  induction t with
  | nil => simp [mapInsert]
  | cons q0 rest ih =>
    obtain ⟨k0, m0⟩ := q0
    rw [List.pairwise_cons] at h
    obtain ⟨h0, hrest⟩ := h
    simp only [mapInsert]
    split_ifs with h1 h2
    · subst h1
      exact List.Pairwise.cons h0 hrest
    · refine List.Pairwise.cons ?_ (List.Pairwise.cons h0 hrest)
      intro b hb
      rcases List.mem_cons.mp hb with h3 | h3
      · rw [h3]; exact h2
      · exact h2.trans (h0 b h3)
    · have h3 : k0 < k := by omega
      refine List.Pairwise.cons ?_ (ih hrest)
      intro b hb
      rcases mapInsert_keys k m rest b hb with h4 | h4
      · rw [h4]; exact h3
      · obtain ⟨b0, hb0, h5⟩ := List.mem_map.mp h4
        rw [← h5]
        exact h0 b0 hb0

/-- A mask property holding for the inserted mask and closed under union
with it propagates through `mapInsert`. -/
theorem mapInsert_forall (p : FieldMask → Prop) (k : ℕ) (m : FieldMask)
    (t : List (ℕ × FieldMask)) (hm : p m)
    (hu : ∀ m0, p m0 → p (m0 ∪ m))
    (ht : ∀ q ∈ t, p q.2) :
    ∀ q ∈ mapInsert k m t, p q.2 := by
  induction t with
  | nil =>
    intro q hq
    rw [mapInsert, List.mem_singleton] at hq
    rw [hq]
    exact hm
  | cons q0 rest ih =>
    obtain ⟨k0, m0⟩ := q0
    intro q hq
    simp only [mapInsert] at hq
    split_ifs at hq with h1 h2
    · subst h1
      rcases List.mem_cons.mp hq with h | h
      · rw [h]
        exact hu m0 (ht (k, m0) (by simp))
      · exact ht q (by simp [h])
    · rcases List.mem_cons.mp hq with h | h
      · rw [h]
        exact hm
      · exact ht q (by simp [h])
    · rcases List.mem_cons.mp hq with h | h
      · exact ht q (by simp [h])
      · exact ih (fun q1 hq1 => ht q1 (by simp [hq1])) q h

/-- Every epoch surviving the advance loop is an input epoch with the
advance mask filtered out of its fields. -/
theorem advanceLoop_fst_shape (adv : FieldMask) (l : List ProjectionEpoch) :
    ∀ (t : List (ℕ × FieldMask)) (e : ProjectionEpoch),
      e ∈ (advanceLoop adv l t).1 →
      ∃ e0 ∈ l, e.epoch_id = e0.epoch_id ∧
        e.valid_fields = e0.valid_fields \ adv := by
  induction l with
  | nil =>
    intro t e he
    simp [advanceLoop] at he
  | cons e0 rest ih =>
    intro t e he
    simp only [advanceLoop] at he
    split_ifs at he with h1 h2
    · rcases List.mem_cons.mp he with h | he'
      · refine ⟨e0, List.mem_cons_self e0 rest, by rw [h], ?_⟩
        rw [h]
        exact (Finset.sdiff_eq_self_of_disjoint
          (Finset.disjoint_iff_inter_eq_empty.mpr h1)).symm
      · obtain ⟨e1, he1, h3, h4⟩ := ih t e he'
        exact ⟨e1, List.mem_cons_of_mem e0 he1, h3, h4⟩
    · obtain ⟨e1, he1, h3, h4⟩ := ih (mapInsert (e0.epoch_id + 1)
        (e0.valid_fields ∩ adv) t) e he
      exact ⟨e1, List.mem_cons_of_mem e0 he1, h3, h4⟩
    · rcases List.mem_cons.mp he with h | he'
      · refine ⟨e0, List.mem_cons_self e0 rest, by rw [h], ?_⟩
        rw [h]
        simp only [Finset.sdiff_inter_self_left]
      · obtain ⟨e1, he1, h3, h4⟩ := ih (mapInsert (e0.epoch_id + 1)
          (e0.valid_fields ∩ adv) t) e he'
        exact ⟨e1, List.mem_cons_of_mem e0 he1, h3, h4⟩

/-- When every input epoch has non-empty fields, so does every surviving
epoch. -/
theorem advanceLoop_fst_nonempty (adv : FieldMask) (l : List ProjectionEpoch)
    (hne : ∀ e ∈ l, e.valid_fields ≠ ∅) :
    ∀ (t : List (ℕ × FieldMask)) (e : ProjectionEpoch),
      e ∈ (advanceLoop adv l t).1 → e.valid_fields ≠ ∅ := by
  induction l with
  | nil =>
    intro t e he
    simp [advanceLoop] at he
  | cons e0 rest ih =>
    have hne0 : e0.valid_fields ≠ ∅ := hne e0 (List.mem_cons_self e0 rest)
    have hner : ∀ e ∈ rest, e.valid_fields ≠ ∅ :=
      fun e he => hne e (List.mem_cons_of_mem e0 he)
    intro t e he
    simp only [advanceLoop] at he
    split_ifs at he with h1 h2
    · rcases List.mem_cons.mp he with rfl | he'
      · exact hne0
      · exact ih hner t e he'
    · exact ih hner _ e he
    · rcases List.mem_cons.mp he with rfl | he'
      · exact h2
      · exact ih hner _ e he'

/-- Every field of an input epoch outside the advance mask survives at the
same epoch id. -/
theorem advanceLoop_fst_complete (adv : FieldMask) (l : List ProjectionEpoch) :
    ∀ (t : List (ℕ × FieldMask)) (f k : ℕ),
      (∃ e0 ∈ l, e0.epoch_id = k ∧ f ∈ e0.valid_fields \ adv) →
      ∃ e ∈ (advanceLoop adv l t).1, e.epoch_id = k ∧ f ∈ e.valid_fields := by
  induction l with
  | nil =>
    intro t f k h
    simp at h
  | cons e0 rest ih =>
    intro t f k h
    rcases List.exists_mem_cons_iff _ _ _ |>.mp h with ⟨hk, hf⟩ | h'
    · simp only [advanceLoop]
      split_ifs with h1 h2
      · exact ⟨e0, List.mem_cons_self e0 _, hk, (Finset.mem_sdiff.mp hf).1⟩
      · exfalso
        rw [Finset.sdiff_inter_self_left] at h2
        rw [h2] at hf
        exact absurd hf (Finset.not_mem_empty f)
      · refine ⟨ProjectionEpoch.mk e0.epoch_id
          (e0.valid_fields \ (e0.valid_fields ∩ adv)),
          List.mem_cons_self _ _, hk, ?_⟩
        simp only [Finset.sdiff_inter_self_left]
        exact hf
    · simp only [advanceLoop]
      split_ifs with h1 h2
      · obtain ⟨e, he, h3, h4⟩ := ih t f k h'
        exact ⟨e, List.mem_cons_of_mem _ he, h3, h4⟩
      · exact ih _ f k h'
      · obtain ⟨e, he, h3, h4⟩ := ih (mapInsert (e0.epoch_id + 1)
          (e0.valid_fields ∩ adv) t) f k h'
        exact ⟨e, List.mem_cons_of_mem _ he, h3, h4⟩

/-- Membership in the accumulated `to_add` map after the advance loop: a
field lands under key `j` iff it was already there or lay, inside the
advance mask, in an input epoch with id `j - 1`. -/
theorem advanceLoop_snd_mem (adv : FieldMask) (l : List ProjectionEpoch) :
    ∀ (t : List (ℕ × FieldMask)) (j f : ℕ),
      (∃ q ∈ (advanceLoop adv l t).2, q.1 = j ∧ f ∈ q.2) ↔
        ((∃ q ∈ t, q.1 = j ∧ f ∈ q.2) ∨
          (∃ e ∈ l, e.epoch_id + 1 = j ∧ f ∈ e.valid_fields ∧ f ∈ adv)) := by
  induction l with
  | nil =>
    intro t j f
    simp [advanceLoop]
  | cons e0 rest ih =>
    intro t j f
    simp only [advanceLoop]
    split_ifs with h1 h2
    · rw [ih t j f, List.exists_mem_cons_iff]
      have hnot : ¬ (e0.epoch_id + 1 = j ∧ f ∈ e0.valid_fields ∧ f ∈ adv) := by
        rintro ⟨-, hf, ha⟩
        have : f ∈ e0.valid_fields ∩ adv := Finset.mem_inter.mpr ⟨hf, ha⟩
        rw [h1] at this
        exact absurd this (Finset.not_mem_empty f)
      constructor
      · rintro (hq | he)
        · exact Or.inl hq
        · exact Or.inr (Or.inr he)
      · rintro (hq | (he0 | he))
        · exact Or.inl hq
        · exact absurd he0 hnot
        · exact Or.inr he
    · rw [ih _ j f, mapInsert_mem, List.exists_mem_cons_iff]
      simp only [Finset.mem_inter]
      constructor
      · rintro ((⟨rfl, hf, ha⟩ | hq) | he)
        · exact Or.inr (Or.inl ⟨rfl, hf, ha⟩)
        · exact Or.inl hq
        · exact Or.inr (Or.inr he)
      · rintro (hq | (⟨hj, hf, ha⟩ | he))
        · exact Or.inl (Or.inr hq)
        · exact Or.inl (Or.inl ⟨hj.symm, hf, ha⟩)
        · exact Or.inr he
    · rw [ih _ j f, mapInsert_mem, List.exists_mem_cons_iff]
      simp only [Finset.mem_inter]
      constructor
      · rintro ((⟨rfl, hf, ha⟩ | hq) | he)
        · exact Or.inr (Or.inl ⟨rfl, hf, ha⟩)
        · exact Or.inl hq
        · exact Or.inr (Or.inr he)
      · rintro (hq | (⟨hj, hf, ha⟩ | he))
        · exact Or.inl (Or.inr hq)
        · exact Or.inl (Or.inl ⟨hj.symm, hf, ha⟩)
        · exact Or.inr he

/-- A mask property of the accumulator entries that holds for every
`e.valid_fields ∩ adv` and is closed under unions with such masks is
preserved by the advance loop. -/
theorem advanceLoop_snd_forall (adv : FieldMask) (p : FieldMask → Prop)
    (hp : ∀ s : FieldMask, s ∩ adv ≠ ∅ → p (s ∩ adv))
    (hu : ∀ (m0 : FieldMask) (s : FieldMask), s ∩ adv ≠ ∅ → p m0 → p (m0 ∪ s ∩ adv))
    (l : List ProjectionEpoch) :
    ∀ t : List (ℕ × FieldMask), (∀ q ∈ t, p q.2) →
      ∀ q ∈ (advanceLoop adv l t).2, p q.2 := by
  induction l with
  | nil =>
    intro t ht q hq
    simp only [advanceLoop] at hq
    exact ht q hq
  | cons e0 rest ih =>
    intro t ht q hq
    simp only [advanceLoop] at hq
    split_ifs at hq with h1 h2
    · exact ih t ht q hq
    · refine ih _ (mapInsert_forall p _ _ t (hp _ h1)
        (fun m0 hm0 => hu m0 _ h1 hm0) ht) q hq
    · refine ih _ (mapInsert_forall p _ _ t (hp _ h1)
        (fun m0 hm0 => hu m0 _ h1 hm0) ht) q hq

/-- The advance loop keeps the accumulator's keys strictly sorted. -/
theorem advanceLoop_snd_sorted (adv : FieldMask) (l : List ProjectionEpoch) :
    ∀ t : List (ℕ × FieldMask), t.Pairwise (fun a b => a.1 < b.1) →
      ((advanceLoop adv l t).2).Pairwise (fun a b => a.1 < b.1) := by
  induction l with
  | nil =>
    intro t ht
    simpa [advanceLoop] using ht
  | cons e0 rest ih =>
    intro t ht
    simp only [advanceLoop]
    split_ifs with h1 h2
    · exact ih t ht
    · exact ih _ (mapInsert_sorted _ _ t ht)
    · exact ih _ (mapInsert_sorted _ _ t ht)

/-- The same-id disjointness of surviving epochs is preserved by the advance
loop. -/
theorem advanceLoop_fst_pairwise (adv : FieldMask) (l : List ProjectionEpoch)
    (hP : l.Pairwise (fun a b =>
      a.epoch_id = b.epoch_id → Disjoint a.valid_fields b.valid_fields)) :
    ∀ t : List (ℕ × FieldMask),
      ((advanceLoop adv l t).1).Pairwise (fun a b =>
        a.epoch_id = b.epoch_id → Disjoint a.valid_fields b.valid_fields) := by
  induction l with
  | nil =>
    intro t
    simp [advanceLoop]
  | cons e0 rest ih =>
    rw [List.pairwise_cons] at hP
    obtain ⟨h0, hrest⟩ := hP
    intro t
    simp only [advanceLoop]
    split_ifs with h1 h2
    · refine List.Pairwise.cons ?_ (ih hrest t)
      intro b hb hid
      obtain ⟨b0, hb0, hbid, hbvf⟩ := advanceLoop_fst_shape adv rest t b hb
      have hd : Disjoint e0.valid_fields b0.valid_fields :=
        h0 b0 hb0 (hid.trans hbid)
      rw [hbvf]
      exact hd.mono_right Finset.sdiff_subset
    · exact ih hrest _
    · refine List.Pairwise.cons ?_ (ih hrest _)
      intro b hb hid
      obtain ⟨b0, hb0, hbid, hbvf⟩ := advanceLoop_fst_shape adv rest
        (mapInsert (e0.epoch_id + 1) (e0.valid_fields ∩ adv) t) b hb
      have hd : Disjoint e0.valid_fields b0.valid_fields :=
        h0 b0 hb0 (hid.trans hbid)
      rw [hbvf]
      exact (hd.mono_right Finset.sdiff_subset).mono_left Finset.sdiff_subset

/-- C8: `LogicalState::advance_projection_epochs` preserves the
projection-epoch invariant (every epoch non-empty, no two epochs with the
same id sharing a field); every field of the advance mask lying in an epoch
with id `k` lies afterwards in an epoch with id `k + 1`, and fields outside
the advance mask keep their epoch ids. -/
theorem C8_advance_projection_epochs :
    ∀ (s : LogicalState) (adv : FieldMask),
      epochInv s.projection_epochs →
      epochInv (s.advance_projection_epochs adv).projection_epochs ∧
      (∀ f k, f ∈ adv → fieldsAt k s.projection_epochs f →
        fieldsAt (k + 1) (s.advance_projection_epochs adv).projection_epochs f) ∧
      (∀ f k, f ∉ adv → fieldsAt k s.projection_epochs f →
        fieldsAt k (s.advance_projection_epochs adv).projection_epochs f) := by
  intro s adv hInv
  obtain ⟨hne, hpw⟩ := hInv
  simp only [LogicalState.advance_projection_epochs, epochInv, fieldsAt]
  have hsub : ∀ q ∈ (advanceLoop adv s.projection_epochs []).2, q.2 ⊆ adv := by
    refine advanceLoop_snd_forall adv (fun m => m ⊆ adv) ?_ ?_
      s.projection_epochs [] (by simp)
    · intro m _
      exact Finset.inter_subset_right
    · intro m0 m _ h0
      exact Finset.union_subset h0 Finset.inter_subset_right
  refine ⟨⟨?_, ?_⟩, ?_, ?_⟩
  · intro e he
    rcases List.mem_append.mp he with h | h
    · exact advanceLoop_fst_nonempty adv s.projection_epochs hne [] e h
    · obtain ⟨q, hq, rfl⟩ := List.mem_map.mp h
      have : ∀ q1 ∈ (advanceLoop adv s.projection_epochs []).2, q1.2 ≠ ∅ := by
        refine advanceLoop_snd_forall adv (fun m => m ≠ ∅) ?_ ?_
          s.projection_epochs [] (by simp)
        · intro m hm
          exact hm
        · intro m0 m hm h0
          rw [Ne, Finset.union_eq_empty]
          rintro ⟨-, h2⟩
          exact hm h2
      exact this q hq
  · rw [List.pairwise_append]
    refine ⟨advanceLoop_fst_pairwise adv s.projection_epochs hpw [],
      ?_, ?_⟩
    · refine List.Pairwise.map _ ?_
        (advanceLoop_snd_sorted adv s.projection_epochs [] (by simp))
      intro q1 q2 hlt hid
      exfalso
      simp only at hid
      omega
    · intro a ha b hb hid
      obtain ⟨e0, _, _, hvf⟩ :=
        advanceLoop_fst_shape adv s.projection_epochs [] a ha
      obtain ⟨q, hq, rfl⟩ := List.mem_map.mp hb
      have hb2 : q.2 ⊆ adv := hsub q hq
      rw [hvf]
      exact Finset.sdiff_disjoint.mono_right hb2
  · intro f k hfa hfk
    obtain ⟨e, he, hid, hf⟩ := hfk
    have := (advanceLoop_snd_mem adv s.projection_epochs [] (k + 1) f).mpr
      (Or.inr ⟨e, he, by rw [hid], hf, hfa⟩)
    obtain ⟨q, hq, h1, h2⟩ := this
    refine ⟨ProjectionEpoch.mk q.1 q.2, ?_, h1, h2⟩
    exact List.mem_append_right _ (List.mem_map_of_mem _ hq)
  · intro f k hfa hfk
    obtain ⟨e, he, hid, hf⟩ := hfk
    obtain ⟨e1, he1, h3, h4⟩ := advanceLoop_fst_complete adv
      s.projection_epochs [] f k
      ⟨e, he, hid, Finset.mem_sdiff.mpr ⟨hf, hfa⟩⟩
    exact ⟨e1, List.mem_append_left _ he1, h3, h4⟩

/-- C8 witness: advancing the mask `{0}` over the single epoch `(3, {0, 1})`
concretely preserves the invariant and moves field 0 to epoch id 4. -/
theorem C8_advance_projection_epochs_witness :
    epochInv [ProjectionEpoch.mk 3 {0, 1}] ∧
    (∀ f k, f ∈ ({0} : FieldMask) →
      fieldsAt k (LogicalState.mk [] [] [] ∅ []
        [ProjectionEpoch.mk 3 {0, 1}]).projection_epochs f →
      fieldsAt (k + 1) ((LogicalState.mk [] [] [] ∅ []
        [ProjectionEpoch.mk 3 {0, 1}]).advance_projection_epochs
          {0}).projection_epochs f) :=
  ⟨⟨by decide, by simp⟩,
   (C8_advance_projection_epochs
     (LogicalState.mk [] [] [] ∅ [] [ProjectionEpoch.mk 3 {0, 1}]) {0}
     ⟨by decide, by simp⟩).2.1⟩

/-- C6, evaluated at the failing input: packing an empty `InstanceSet` and
unpacking the zero refs into a freshly constructed two-element set leaves the
destination with `single = true` but the multi pointer still in the union
(the zero-refs branch of `unpack_references` never clears it), so the
destination compares unequal to the source and reports size 1 instead of
0. -/
theorem C6_roundtrip_failing_input :
    instanceSetNew ([] : Heap) 2 =
      ([some (Cell.mk 1 (Storage.multi [default, default]))],
        ISHandle.mk false false (some 0)) ∧
    packReferences [some (Cell.mk 1 (Storage.multi [default, default]))]
      (ISHandle.mk true false none) = [] ∧
    (unpackReferences [some (Cell.mk 1 (Storage.multi [default, default]))]
      (ISHandle.mk false false (some 0)) []).2 = ISHandle.mk true false (some 0) ∧
    instanceSetEq
      (unpackReferences [some (Cell.mk 1 (Storage.multi [default, default]))]
        (ISHandle.mk false false (some 0)) []).1
      (unpackReferences [some (Cell.mk 1 (Storage.multi [default, default]))]
        (ISHandle.mk false false (some 0)) []).2
      (ISHandle.mk true false none) = false ∧
    instanceSetSize
      (unpackReferences [some (Cell.mk 1 (Storage.multi [default, default]))]
        (ISHandle.mk false false (some 0)) []).1
      (unpackReferences [some (Cell.mk 1 (Storage.multi [default, default]))]
        (ISHandle.mk false false (some 0)) []).2 = 1 := by
  refine ⟨by decide, by decide, by decide, by decide, by decide⟩

/-- C7 counterexample: after a copy construction (both handles shared, one
cell with two references), `unpack_references` of a single wire ref mutates
the shared `CollectableRef` in place — no `make_copy` — so the other copy's
observable contents change. -/
theorem C7_cow_counterexample :
    instanceSetCopy
        [some (Cell.mk 1 (Storage.single (InstanceRef.mk {0} 0 none true)))]
        (ISHandle.mk true false (some 0)) =
      ([some (Cell.mk 2 (Storage.single (InstanceRef.mk {0} 0 none true)))],
        ISHandle.mk true true (some 0), ISHandle.mk true true (some 0)) ∧
    obs ((unpackReferences
        [some (Cell.mk 2 (Storage.single (InstanceRef.mk {0} 0 none true)))]
        (ISHandle.mk true true (some 0)) [WireRef.mk {1} 5 0]).1)
      (ISHandle.mk true true (some 0)) ≠
    obs [some (Cell.mk 2 (Storage.single (InstanceRef.mk {0} 0 none true)))]
      (ISHandle.mk true true (some 0)) := by
  refine ⟨by decide, by decide⟩

/-- A live cell lies inside the heap. -/
theorem heapGet_lt_length (h : Heap) (p : ℕ) (c : Cell)
    (hc : heapGet h p = some c) : p < h.length := by
  by_contra hcon
  push_neg at hcon
  rw [heapGet, List.getD_eq_default _ _ hcon] at hc
  exact Option.noConfusion hc

/-- Allocation does not disturb existing cells. -/
theorem heapGet_append (h : Heap) (c : Option Cell) (p : ℕ)
    (hp : p < h.length) : heapGet (h ++ [c]) p = heapGet h p :=
  List.getD_append h [c] none p hp

/-- Reading back an overwritten cell. -/
theorem heapGet_set_self (h : Heap) (p : ℕ) (c : Option Cell)
    (hp : p < h.length) : heapGet (heapSet h p c) p = c := by
  simp [heapGet, heapSet, List.getD, List.getElem?_set_self, hp]

/-- Overwriting one cell leaves the others alone. -/
theorem heapGet_set_ne (h : Heap) (q p : ℕ) (c : Option Cell)
    (hne : q ≠ p) : heapGet (heapSet h q c) p = heapGet h p := by
  simp [heapGet, heapSet, List.getD, List.getElem?_set_ne hne]

/-- Releasing a reference on a cell with at least two leaves its payload in
place, decrementing the count. -/
theorem releaseRef_store (h : Heap) (p : ℕ) (c : Cell)
    (hc : heapGet h p = some c) (hrc : 2 ≤ c.rc) :
    heapGet (releaseRef h p) p = some (Cell.mk (c.rc - 1) c.store) := by
  rw [releaseRef, hc]
  dsimp only
  rw [if_neg (by omega)]
  exact heapGet_set_self h p _ (heapGet_lt_length h p c hc)

/-- Releasing one cell leaves the others alone. -/
theorem releaseRef_get_ne (h : Heap) (q p : ℕ) (hne : q ≠ p) :
    heapGet (releaseRef h q) p = heapGet h p := by
  rw [releaseRef]
  rcases heapGet h q with _ | c
  · rfl
  · dsimp only
    split_ifs <;> exact heapGet_set_ne h q p _ hne

/-- Writing a single-mode cell leaves the others alone. -/
theorem setSingleRef_get_ne (h : Heap) (q p : ℕ) (r : InstanceRef)
    (hne : q ≠ p) : heapGet (setSingleRef h q r) p = heapGet h p := by
  rw [setSingleRef]
  rcases heapGet h q with _ | c
  · rfl
  · exact heapGet_set_ne h q p _ hne

/-- Writing a multi-mode cell leaves the others alone. -/
theorem setVec_get_ne (h : Heap) (q p : ℕ) (v : List InstanceRef)
    (hne : q ≠ p) : heapGet (setVec h q v) p = heapGet h p := by
  rw [setVec]
  rcases heapGet h q with _ | c
  · rfl
  · exact heapGet_set_ne h q p _ hne

/-- `getSingleRef` only looks at the cell's payload, not its count. -/
theorem getSingleRef_congr (hA hB : Heap) (p : ℕ)
    (hst : (heapGet hA p).map Cell.store = (heapGet hB p).map Cell.store) :
    getSingleRef hA p = getSingleRef hB p := by
  rw [getSingleRef, getSingleRef]
  rcases h1 : heapGet hA p with _ | c1
  · rcases h2 : heapGet hB p with _ | c2
    · rfl
    · rw [h1, h2] at hst
      exact absurd hst (by simp)
  · rcases h2 : heapGet hB p with _ | c2
    · rw [h1, h2] at hst
      exact absurd hst (by simp)
    · rw [h1, h2] at hst
      simp only [Option.map_some', Option.some.injEq] at hst
      obtain ⟨rc1, st1⟩ := c1
      obtain ⟨rc2, st2⟩ := c2
      simp only at hst
      subst hst
      cases st1 <;> rfl

/-- `getVec` only looks at the cell's payload, not its count. -/
theorem getVec_congr (hA hB : Heap) (p : ℕ)
    (hst : (heapGet hA p).map Cell.store = (heapGet hB p).map Cell.store) :
    getVec hA p = getVec hB p := by
  rw [getVec, getVec]
  rcases h1 : heapGet hA p with _ | c1
  · rcases h2 : heapGet hB p with _ | c2
    · rfl
    · rw [h1, h2] at hst
      exact absurd hst (by simp)
  · rcases h2 : heapGet hB p with _ | c2
    · rw [h1, h2] at hst
      exact absurd hst (by simp)
    · rw [h1, h2] at hst
      simp only [Option.map_some', Option.some.injEq] at hst
      obtain ⟨rc1, st1⟩ := c1
      obtain ⟨rc2, st2⟩ := c2
      simp only at hst
      subst hst
      cases st1 <;> rfl

/-- The observable contents of a handle depend only on its cell's payload. -/
theorem obs_congr (hA hB : Heap) (hd : ISHandle) (p : ℕ)
    (hp : hd.ptr = some p)
    (hst : (heapGet hA p).map Cell.store = (heapGet hB p).map Cell.store) :
    obs hA hd = obs hB hd := by
  rw [obs, obs, hp]
  rcases hs : hd.single
  · simp only [Bool.false_eq_true, if_false, Option.getD_some]
    rw [getVec_congr hA hB p hst]
  · simp only [if_true]
    rw [getSingleRef_congr hA hB p hst]

/-- C7 amended: for two handles sharing one storage cell after a copy (the
mutating handle marked shared, the cell holding at least two references),
mutation through the non-const `operator[]`, `add_instance`, or `resize`
leaves the other copy's observable contents unchanged — the storage is
cloned or replaced before any write.  (`unpack_references` is excluded: it
writes shared storage in place, see the counterexample.) -/
theorem C7_cow_frame :
    ∀ (h : Heap) (h1 h2 : ISHandle) (p : ℕ) (c : Cell),
      h1.shared = true → h1.ptr = some p → h2.ptr = some p →
      heapGet h p = some c → 2 ≤ c.rc →
      (∀ idx r, obs (setIndex h h1 idx r).1 h2 = obs h h2) ∧
      (∀ r, obs (addInstance h h1 r).1 h2 = obs h h2) ∧
      (∀ n, obs (instanceSetResize h h1 n).1 h2 = obs h h2) := by
  intro h h1 h2 p c hsh hp1 hp2 hc hrc
  have hlen : p < h.length := heapGet_lt_length h p c hc
  have hne : h.length ≠ p := fun he => absurd (he ▸ hlen) (lt_irrefl p)
  have hrel : ∀ x : Option Cell,
      (heapGet (releaseRef (h ++ [x]) p) p).map Cell.store =
        (heapGet h p).map Cell.store := by
    intro x
    rw [releaseRef_store (h ++ [x]) p c
      (by rw [heapGet_append _ _ _ hlen]; exact hc) hrc, hc]
    rfl
  have hrel0 : (heapGet (releaseRef h p) p).map Cell.store =
      (heapGet h p).map Cell.store := by
    rw [releaseRef_store h p c hc hrc, hc]
    rfl
  have hmc : (heapGet (makeCopy h h1).1 p).map Cell.store =
      (heapGet h p).map Cell.store ∧ (makeCopy h h1).2.ptr = some h.length := by
    rw [makeCopy]
    by_cases hs : h1.single = true
    · rw [if_pos hs, hp1]
      dsimp only [heapAlloc]
      exact ⟨hrel _, rfl⟩
    · rw [if_neg hs, hp1]
      simp only [Option.getD_some]
      dsimp only [heapAlloc]
      exact ⟨hrel _, rfl⟩
  have hset : ∀ (idx : ℕ) (r : InstanceRef),
      (heapGet (setIndex h h1 idx r).1 p).map Cell.store =
        (heapGet h p).map Cell.store := by
    intro idx r
    rw [setIndex, if_pos hsh]
    by_cases hs2 : (makeCopy h h1).2.single = true
    · rw [if_pos hs2, hmc.2]
      dsimp only
      rw [setSingleRef_get_ne _ _ _ _ hne]
      exact hmc.1
    · rw [if_neg hs2, hmc.2]
      simp only [Option.getD_some]
      rw [setVec_get_ne _ _ _ _ hne]
      exact hmc.1
  have hadd : ∀ r : InstanceRef,
      (heapGet (addInstance h h1 r).1 p).map Cell.store =
        (heapGet h p).map Cell.store := by
    intro r
    rw [addInstance]
    by_cases hs : h1.single = true
    · rw [if_pos hs, hp1]
      dsimp only [heapAlloc]
      exact hrel _
    · rw [if_neg hs, if_pos hsh]
      dsimp only
      rw [hmc.2]
      simp only [Option.getD_some]
      rw [setVec_get_ne _ _ _ _ hne]
      exact hmc.1
  have hres : ∀ n : ℕ,
      (heapGet (instanceSetResize h h1 n).1 p).map Cell.store =
        (heapGet h p).map Cell.store := by
    intro n
    rw [instanceSetResize]
    by_cases hs : h1.single = true
    · rw [if_pos hs]
      by_cases hn0 : n = 0
      · rw [if_pos hn0, hp1]
        dsimp only
        exact hrel0
      · rw [if_neg hn0]
        by_cases hn1 : n > 1
        · rw [if_pos hn1, hp1]
          dsimp only [heapAlloc]
          exact hrel _
        · rw [if_neg hn1, hp1]
    · rw [if_neg hs]
      by_cases hn0 : n = 0
      · rw [if_pos hn0, hp1]
        simp only [Option.getD_some]
        exact hrel0
      · rw [if_neg hn0]
        by_cases hn1 : n = 1
        · rw [if_pos hn1, hp1]
          simp only [Option.getD_some]
          dsimp only [heapAlloc]
          exact hrel _
        · rw [if_neg hn1, hp1]
          simp only [Option.getD_some]
          by_cases hlen2 : (getVec h p).length = n
          · rw [if_pos hlen2]
          · rw [if_neg hlen2, if_pos hsh]
            dsimp only [heapAlloc]
            exact hrel _
  exact ⟨fun idx r => obs_congr _ h h2 p hp2 (hset idx r),
    fun r => obs_congr _ h h2 p hp2 (hadd r),
    fun n => obs_congr _ h h2 p hp2 (hres n)⟩

/-- C7 witness: the frame property at a concrete shared pair — writing slot 0
of one copy through `operator[]` leaves the other copy's contents intact. -/
theorem C7_cow_frame_witness :
    ((ISHandle.mk true true (some 0)).shared = true ∧
      heapGet [some (Cell.mk 2 (Storage.single (InstanceRef.mk {0} 0 none true)))] 0 =
        some (Cell.mk 2 (Storage.single (InstanceRef.mk {0} 0 none true)))) ∧
    obs (setIndex [some (Cell.mk 2 (Storage.single (InstanceRef.mk {0} 0 none true)))]
        (ISHandle.mk true true (some 0)) 0 (InstanceRef.mk {1} 5 none true)).1
      (ISHandle.mk true true (some 0)) =
    obs [some (Cell.mk 2 (Storage.single (InstanceRef.mk {0} 0 none true)))]
      (ISHandle.mk true true (some 0)) :=
  ⟨⟨rfl, by decide⟩,
   (C7_cow_frame [some (Cell.mk 2 (Storage.single (InstanceRef.mk {0} 0 none true)))]
     (ISHandle.mk true true (some 0)) (ISHandle.mk true true (some 0)) 0
     (Cell.mk 2 (Storage.single (InstanceRef.mk {0} 0 none true)))
     rfl rfl rfl (by decide) (by decide)).1 0 (InstanceRef.mk {1} 5 none true)⟩

end LegionAnalysis
